import Mathlib

set_option maxHeartbeats 1000000
set_option maxRecDepth 4000

/-!
Shallow embedding of three MoarVM runtime cores:
* callsite interning and derivation (src/core/callsite.c),
* the index variant of the open-addressed Robin-Hood hash table,
* the GC orchestrator's blocked-thread transition.

Machine integers are modelled as `Nat` (the quantities involved are counts and
small indices; the one place where 64-bit wrap matters, the hash value, is
reduced `% 2 ^ 64` explicitly). Strings are modelled by their contents, since
`MVM_string_equal` compares contents. Pointers into the interning store are
modelled as (arity, slot) coordinates, which coincide with C pointer identity
because each store cell holds exactly one descriptor for the whole VM lifetime.
-/

/-- An `MVMString *` handle, modelled by the string's contents (a value),
since the only operation used on names is `MVM_string_equal`. -/
abbrev MVMStr := Nat

/-- `MVMCallsite` (callsite.h). `with_invocant` makes the type recursive. -/
inductive MVMCallsite : Type where
  | mk
    (arg_flags : List Nat)
    (arg_count : Nat)
    (num_pos : Nat)
    (flag_count : Nat)
    (has_flattening : Bool)
    (is_interned : Bool)
    (with_invocant : Option MVMCallsite)
    (arg_names : Option (List MVMStr))

def MVMCallsite.arg_flags : MVMCallsite → List Nat
  | .mk f _ _ _ _ _ _ _ => f

def MVMCallsite.arg_count : MVMCallsite → Nat
  | .mk _ ac _ _ _ _ _ _ => ac

def MVMCallsite.num_pos : MVMCallsite → Nat
  | .mk _ _ np _ _ _ _ _ => np

def MVMCallsite.flag_count : MVMCallsite → Nat
  | .mk _ _ _ fc _ _ _ _ => fc

def MVMCallsite.has_flattening : MVMCallsite → Bool
  | .mk _ _ _ _ hf _ _ _ => hf

def MVMCallsite.is_interned : MVMCallsite → Bool
  | .mk _ _ _ _ _ ii _ _ => ii

def MVMCallsite.with_invocant : MVMCallsite → Option MVMCallsite
  | .mk _ _ _ _ _ _ wi _ => wi

def MVMCallsite.arg_names : MVMCallsite → Option (List MVMStr)
  | .mk _ _ _ _ _ _ _ an => an

/-- Modelled from the spec: `MVM_callsite_num_nameds` lives in callsite.h,
which is not among the presented sources. Spec §3: `arg_names` is "one per
named argument (length = flag_count − num_pos)", so the named-argument count
is `flag_count − num_pos`. -/
def MVM_callsite_num_nameds (cs : MVMCallsite) : Nat :=
  cs.flag_count - cs.num_pos

/-- `MVM_callsite_copy` from callsite.c: a deep clone. The C code `memcpy`s
`flag_count` flag bytes (leaving `arg_flags` unset when `flag_count = 0`,
modelled as `[]`), copies the first `num_nameds` names when present, recurses
on `with_invocant`, and copies every scalar field — including `is_interned`. -/
def MVM_callsite_copy : MVMCallsite → MVMCallsite
  | .mk f ac np fc hf ii wi an =>
    .mk (if fc ≠ 0 then f.take fc else [])
      ac np fc hf ii
      (match wi with
       | none => none
       | some c => some (MVM_callsite_copy c))
      (match an with
       | some l => some (l.take (fc - np))
       | none => none)

/-- Modelled from the spec: the flag constants live in callsite.h. Spec §3
says flags are "small tags drawn from {OBJ, INT, NUM, STR, … plus
flattening/named modifier bits}"; in MoarVM the named modifier is bit 5
(value 32) of the flag byte. -/
def flagIsNamed (f : Nat) : Bool := f.testBit 5

/-- The number of leading positional (non-named) flags; per spec §3,
`num_pos` is "leading positional count". -/
def numLeadingPositionals (flags : List Nat) : Nat :=
  (flags.takeWhile (fun f => !flagIsNamed f)).length

/-- Data-model invariants of a callsite descriptor (spec §3): `arg_flags` has
length `flag_count`; `num_pos` is the leading positional count determined by
the flags; `arg_names`, when present, has one entry per named argument; and
for the non-flattening callsites handled by the interning store each flag
describes exactly one argument, so `arg_count = flag_count`. -/
def MVMCallsite.wf (cs : MVMCallsite) : Bool :=
  (cs.arg_flags.length == cs.flag_count) &&
  (cs.num_pos == numLeadingPositionals cs.arg_flags) &&
  (match cs.arg_names with
   | some l => l.length == cs.flag_count - cs.num_pos
   | none => true) &&
  (cs.arg_count == cs.flag_count)

/-- The sequence of named-argument strings of a callsite: the first
`num_nameds` entries of `arg_names` (empty when `arg_names` is absent). -/
def namesSeq (cs : MVMCallsite) : List MVMStr :=
  (cs.arg_names.getD []).take (MVM_callsite_num_nameds cs)

/-- Structural identity used by interning: the `arg_flags` byte sequence plus
the string-valued named-argument sequence. -/
def csKey (cs : MVMCallsite) : List Nat × List MVMStr :=
  (cs.arg_flags, namesSeq cs)

/-- Interned-equality: identical `arg_flags` byte sequence and pairwise
string-equal `arg_names`. -/
def internEqb (a b : MVMCallsite) : Bool := csKey a == csKey b

/-- `callsites_equal` from callsite.c: memcmp of the first `num_flags` flag
bytes (skipped when `num_flags` is zero) plus string equality of the first
`num_nameds` names of each side. -/
def callsites_equal (cs1 cs2 : MVMCallsite) (num_flags num_nameds : Nat) : Bool :=
  ((num_flags == 0) || (cs1.arg_flags.take num_flags == cs2.arg_flags.take num_flags)) &&
  ((cs1.arg_names.getD []).take num_nameds == (cs2.arg_names.getD []).take num_nameds)

/-- Modelled from the spec (§6): `MVM_INTERN_ARITY_LIMIT` is defined in a
header that is not among the presented sources; its value is 8. -/
def MVM_INTERN_ARITY_LIMIT : Nat := 8

/-- The interning store: for each arity, an ordered bucket of callsites.
Buckets beyond the list's length are empty. -/
structure MVMCallsiteInterns where
  by_arity : List (List MVMCallsite)

def MVMCallsiteInterns.bucket (s : MVMCallsiteInterns) (k : Nat) : List MVMCallsite :=
  s.by_arity.getD k []

def MVMCallsiteInterns.setBucket (s : MVMCallsiteInterns) (k : Nat)
    (l : List MVMCallsite) : MVMCallsiteInterns :=
  ⟨(s.by_arity ++ List.replicate (k + 1 - s.by_arity.length) []).set k l⟩

/-- `cs->is_interned = 1`. -/
def markInterned : MVMCallsite → MVMCallsite
  | .mk f ac np fc hf _ wi an => .mk f ac np fc hf true wi an

/-- A C pointer to a callsite, as observable after `MVM_callsite_try_intern`:
either the caller's own descriptor (untouched), or the store cell at
(arity, slot). Two `interned` coordinates are equal iff the C pointers are,
because each cell holds one descriptor for the VM lifetime. -/
inductive InternPtr : Type where
  | original : MVMCallsite → InternPtr
  | interned : Nat → Nat → InternPtr

/-- Index of the first element of `l` satisfying `p` (the linear bucket
scan of `MVM_callsite_try_intern`). -/
def findMatch (p : MVMCallsite → Bool) : List MVMCallsite → Option Nat
  | [] => none
  | x :: xs => if p x then some 0 else (findMatch p xs).map (· + 1)

/-- `MVM_callsite_try_intern` from callsite.c. Returns the updated store and
what `*cs_ptr` points to afterwards. The three early returns leave both
untouched; a hit frees the argument and redirects `*cs_ptr` to the stored
descriptor; a miss appends the argument to its arity bucket and marks it
interned (the geometric bucket reallocation only affects capacity, which the
list model does not track). -/
def MVM_callsite_try_intern (s : MVMCallsiteInterns) (cs : MVMCallsite) :
    MVMCallsiteInterns × InternPtr :=
  if cs.has_flattening then (s, .original cs)
  else if MVM_INTERN_ARITY_LIMIT ≤ cs.flag_count then (s, .original cs)
  else if 0 < MVM_callsite_num_nameds cs ∧ cs.arg_names = none then (s, .original cs)
  else
    match findMatch
        (fun e => callsites_equal e cs cs.flag_count (MVM_callsite_num_nameds cs))
        (s.bucket cs.flag_count) with
    | some i => (s, .interned cs.flag_count i)
    | none =>
        (s.setBucket cs.flag_count (s.bucket cs.flag_count ++ [markInterned cs]),
         .interned cs.flag_count (s.bucket cs.flag_count).length)

def defaultCallsite : MVMCallsite := .mk [] 0 0 0 false false none none

/-- The callsite a returned pointer designates. -/
def derefPtr (s : MVMCallsiteInterns) (p : InternPtr) : MVMCallsite :=
  match p with
  | .original cs => cs
  | .interned k i => (s.bucket k).getD i defaultCallsite

/-- What holds of every descriptor stored in arity bucket `k`: it satisfies
the data-model invariants, its `flag_count` is the bucket's arity, it is
non-flattening (flattening callsites are never interned), and its names are
present whenever it has named arguments (the third `try_intern` guard). -/
def bucketElemOK (k : Nat) (e : MVMCallsite) : Bool :=
  e.wf && (e.flag_count == k) && (e.has_flattening == false) &&
  ((MVM_callsite_num_nameds e == 0) || e.arg_names.isSome)

/-- The interning-store invariant: every stored descriptor is well-formed for
its bucket. (Every store reachable from the empty store by `try_intern` of
well-formed callsites satisfies this.) -/
def internInv (s : MVMCallsiteInterns) : Bool :=
  (List.range s.by_arity.length).all (fun k => (s.bucket k).all (bucketElemOK k))

/-- Errors thrown by the callsite derivation operators. -/
inductive CallsiteError : Type where
  | outOfRange : CallsiteError
  | hasFlattening : CallsiteError

/-- `copy_nameds` from callsite.c: copies `from->flag_count - from->num_pos`
names when `from` has names; otherwise the calloc'd field stays absent. -/
def copy_nameds (cs : MVMCallsite) : Option (List MVMStr) :=
  match cs.arg_names with
  | some l => some (l.take (cs.flag_count - cs.num_pos))
  | none => none

/-- The flag-copying loop of `MVM_callsite_drop_positional`: the first
`flag_count` flag bytes with position `idx` removed. -/
def dropFlags (cs : MVMCallsite) (idx : Nat) : List Nat :=
  (cs.arg_flags.take cs.flag_count).eraseIdx idx

/-- The flag-copying loop of `MVM_callsite_insert_positional`: `flag`
inserted at position `idx`. When `idx > flag_count` the C loop never places
`flag` (the final slot of the new buffer is left unwritten); `insertIdx`
likewise drops the element in that case. -/
def insertFlags (cs : MVMCallsite) (idx flag : Nat) : List Nat :=
  (cs.arg_flags.take cs.flag_count).insertIdx idx flag

/-- `MVM_callsite_drop_positional` from callsite.c. The new descriptor is
calloc'd, so `has_flattening`, `is_interned` and `with_invocant` start zero. -/
def MVM_callsite_drop_positional (s : MVMCallsiteInterns) (cs : MVMCallsite)
    (idx : Nat) : Except CallsiteError (MVMCallsiteInterns × InternPtr) :=
  if cs.num_pos ≤ idx then .error .outOfRange
  else if cs.has_flattening then .error .hasFlattening
  else
    .ok (MVM_callsite_try_intern s
      (.mk (dropFlags cs idx) (cs.arg_count - 1) (cs.num_pos - 1) (cs.flag_count - 1)
        false false none (copy_nameds cs)))

/-- `MVM_callsite_insert_positional` from callsite.c. -/
def MVM_callsite_insert_positional (s : MVMCallsiteInterns) (cs : MVMCallsite)
    (idx flag : Nat) : Except CallsiteError (MVMCallsiteInterns × InternPtr) :=
  if cs.num_pos < idx then .error .outOfRange
  else if cs.has_flattening then .error .hasFlattening
  else
    .ok (MVM_callsite_try_intern s
      (.mk (insertFlags cs idx flag) (cs.arg_count + 1) (cs.num_pos + 1) (cs.flag_count + 1)
        false false none (copy_nameds cs)))

/-! ## Index hash table (the unnamed Robin-Hood hash source file) -/

/-- `INDEX_MIN_SIZE_BASE_2` from the hash source. -/
def INDEX_MIN_SIZE_BASE_2 : Nat := 3

/-- Modelled from the spec (§6): `MVM_HASH_MAX_PROBE_DISTANCE` is defined in
a header that is not among the presented sources; its value is 255. -/
def MVM_HASH_MAX_PROBE_DISTANCE : Nat := 255

/-- `struct MVMIndexHashTableControl` plus the two regions of its single
backing allocation, as parallel lists indexed by slot. `metadata` has one
byte per allocated slot plus the terminal sentinel byte `1`; `entries` has
one (small-integer index) entry per allocated slot. The C allocation also
rounds the metadata region up, leaving zero padding past the sentinel, which
the model omits: walking past the sentinel is modelled as the `overrun`
error. -/
structure MVMIndexHashTableControl where
  official_size_log2 : Nat
  max_items : Nat
  cur_items : Nat
  max_probe_distance : Nat
  max_probe_distance_limit : Nat
  key_right_shift : Nat
  metadata : List Nat
  entries : List Nat
deriving DecidableEq, Repr

/-- `hash_allocate_common`. `MVM_INDEX_HASH_LOAD_FACTOR` lives in a header
not among the presented sources; modelled from the spec (§6) as 0.75, which
makes `official_size * LOAD_FACTOR` the exact integer `official_size * 3 / 4`
(official_size is a power of two). -/
def hash_allocate_common (key_right_shift official_size_log2 : Nat) :
    MVMIndexHashTableControl :=
  let official_size := 2 ^ official_size_log2
  let max_items := official_size * 3 / 4
  let max_probe_distance_limit :=
    if MVM_HASH_MAX_PROBE_DISTANCE - 1 < max_items - 1 then
      MVM_HASH_MAX_PROBE_DISTANCE - 1
    else
      max_items - 1
  let allocated_items := official_size + max_probe_distance_limit
  { official_size_log2 := official_size_log2,
    max_items := max_items,
    cur_items := 0,
    max_probe_distance := max_probe_distance_limit,
    max_probe_distance_limit := max_probe_distance_limit,
    key_right_shift := key_right_shift,
    metadata := List.replicate allocated_items 0 ++ [1],
    entries := List.replicate allocated_items 0 }

/-- Modelled from the spec: `MVM_round_up_log_base2` lives in a header not
among the presented sources; the spec calls it `ceil_log2`. -/
def MVM_round_up_log_base2 (v : Nat) : Nat := Nat.clog 2 v

/-- The `initial_size_base2` computation of `MVM_index_hash_build`. The C
code computes `min_needed = entries * (1.0 / MVM_INDEX_HASH_LOAD_FACTOR)` in
double arithmetic and truncates to an integer; `min_needed` is therefore a
parameter here, constrained in the theorems to the window
`4*entries - 3 ≤ 3*min_needed ≤ 4*entries` that contains every value the
floating-point computation can produce for 32-bit `entries`. -/
def build_size_base2 (entries min_needed : Nat) : Nat :=
  if entries = 0 then INDEX_MIN_SIZE_BASE_2
  else
    let initial := MVM_round_up_log_base2 min_needed
    if initial < INDEX_MIN_SIZE_BASE_2 then INDEX_MIN_SIZE_BASE_2 else initial

/-- `MVM_index_hash_build`: the `key_right_shift` argument is
`8 * sizeof(MVMuint64) - initial_size_base2 = 64 - initial_size_base2`. -/
def MVM_index_hash_build (entries min_needed : Nat) : MVMIndexHashTableControl :=
  hash_allocate_common (64 - build_size_base2 entries min_needed)
    (build_size_base2 entries min_needed)

/-- The spec's own size formula (§4.2): `max(MIN, ceil_log2(entries /
LOAD_FACTOR))` with `MIN = 3` and `LOAD_FACTOR = 0.75`; the ceiling of the
rational `4*entries/3` is `(4*entries + 2) / 3` in integer division. -/
def spec_initial_size_base2 (entries : Nat) : Nat :=
  max 3 (Nat.clog 2 ((4 * entries + 2) / 3))

/-- Modelled from the spec: `MVM_index_hash_create_loop_state` lives in a
header not among the presented sources. Spec §4.2: "the 64-bit hash of the
string is split as `home = hash >> key_right_shift`"; probe distance starts
at 1 at the home slot. The hash function over string contents is a parameter
`hf`. -/
def homeSlot (hf : Nat → Nat) (c : MVMIndexHashTableControl) (key : Nat) : Nat :=
  (hf key % 2 ^ 64) >>> c.key_right_shift

/-- How a run of `hash_insert_internal` can abort. `recursiveGrow` and
`duplicate` are the two `MVM_oops` calls in the source; `overrun` is the
model's name for the loop walking past the end of the allocation (which the
overflow guard is there to prevent). -/
inductive HashInsertAbort : Type where
  | recursiveGrow : HashInsertAbort
  | duplicate : HashInsertAbort
  | overrun : HashInsertAbort
deriving DecidableEq, Repr

/-- The "find me a gap" do-while loop: the index of the first empty slot
strictly after `pos`, reading the original metadata (in C the writes trail
the reads by one slot, so each read sees an original byte). `none` when the
walk leaves the modelled allocation. -/
def gapFind (md : List Nat) : Nat → Nat → Option Nat
  | _, 0 => none
  | pos, fuel + 1 =>
    match md.get? (pos + 1) with
    | none => none
    | some 0 => some (pos + 1)
    | some (_ + 1) => gapFind md (pos + 1) fuel

/-- The state after the "make room" branch wrote the candidate at `pos` and
shifted slots `pos+1 .. z` (where `z` is the gap): metadata bytes `pos+1..z`
become the old bytes of `pos..z-1` plus one, the entries block moves along by
one slot, and `max_items` is zeroed if any written probe distance (a shifted
byte or the candidate's `pd`) reaches `max_probe_distance`. -/
def makeRoom (c : MVMIndexHashTableControl) (idx pos pd z : Nat) :
    MVMIndexHashTableControl :=
  let seg := (c.metadata.drop pos).take (z - pos)
  { c with
    cur_items := c.cur_items + 1,
    max_items :=
      if seg.any (fun v => v + 1 == c.max_probe_distance) || (pd == c.max_probe_distance)
      then 0 else c.max_items,
    metadata := c.metadata.take pos ++ [pd] ++ seg.map (· + 1) ++ c.metadata.drop (z + 1),
    entries := c.entries.take pos ++ [idx] ++ (c.entries.drop pos).take (z - pos)
      ++ c.entries.drop (z + 1) }

/-- The state after writing the candidate into the empty slot `pos`. -/
def writeEmpty (c : MVMIndexHashTableControl) (idx pos pd : Nat) :
    MVMIndexHashTableControl :=
  { c with
    cur_items := c.cur_items + 1,
    max_items := if pd == c.max_probe_distance then 0 else c.max_items,
    metadata := c.metadata.set pos pd,
    entries := c.entries.set pos idx }

/-- The probe loop of `hash_insert_internal`, walking from slot `pos` with
candidate probe distance `pd`. `fuel` only bounds the recursion; it is set
to more than the slot count, so exhausting it (or reading past the metadata
list) models walking off the allocation. -/
def insertLoop (c : MVMIndexHashTableControl) (idx : Nat) :
    Nat → Nat → Nat → Except HashInsertAbort MVMIndexHashTableControl
  | _, _, 0 => .error .overrun
  | pos, pd, fuel + 1 =>
    match c.metadata.get? pos with
    | none => .error .overrun
    | some m =>
      if m < pd then
        if m = 0 then
          .ok (writeEmpty c idx pos pd)
        else
          match gapFind c.metadata pos c.metadata.length with
          | none => .error .overrun
          | some z => .ok (makeRoom c idx pos pd z)
      else if m = pd ∧ c.entries.getD pos 0 = idx then .error .duplicate
      else insertLoop c idx (pos + 1) (pd + 1) fuel

/-- `hash_insert_internal`: the guard oops, then the probe loop from the
candidate's home slot. `list` is the caller-owned string list; the inserted
value `idx` is keyed by `list[idx]`. -/
def hash_insert_internal (hf : Nat → Nat) (c : MVMIndexHashTableControl)
    (list : List Nat) (idx : Nat) : Except HashInsertAbort MVMIndexHashTableControl :=
  if c.max_items ≤ c.cur_items then .error .recursiveGrow
  else insertLoop c idx (homeSlot hf c (list.getD idx 0)) 1 (c.metadata.length + 1)

/-- Modelled from the spec: `MVM_index_hash_kompromat` lives in a header not
among the presented sources; per spec §4.2 the grow loop "walks the old
slots in order", i.e. every allocatable slot. -/
def kompromat (c : MVMIndexHashTableControl) : Nat :=
  2 ^ c.official_size_log2 + c.max_probe_distance_limit

/-- The re-insertion walk of `maybe_grow_hash` over the old table's
(metadata, entry) pairs in slot order. -/
def reinsertAll (hf : Nat → Nat) (list : List Nat) :
    List (Nat × Nat) → MVMIndexHashTableControl →
    Except HashInsertAbort MVMIndexHashTableControl
  | [], c => .ok c
  | (m, e) :: rest, c =>
    if m ≠ 0 then
      match hash_insert_internal hf c list e with
      | .ok c' => reinsertAll hf list rest c'
      | .error err => .error err
    else reinsertAll hf list rest c

/-- `maybe_grow_hash`: allocate at `official_size_log2 + 1` with
`key_right_shift - 1`, re-insert every occupied slot of the old table in
order, free the old block. -/
def maybe_grow_hash (hf : Nat → Nat) (c : MVMIndexHashTableControl)
    (list : List Nat) : Except HashInsertAbort MVMIndexHashTableControl :=
  reinsertAll hf list ((c.metadata.zip c.entries).take (kompromat c))
    (hash_allocate_common (c.key_right_shift - 1) (c.official_size_log2 + 1))

/-- `MVM_index_hash_insert_nocheck`: grow first when `cur_items ≥
max_items` (in this source `maybe_grow_hash` always returns a new control),
then run the internal insert. -/
def MVM_index_hash_insert_nocheck (hf : Nat → Nat) (c : MVMIndexHashTableControl)
    (list : List Nat) (idx : Nat) : Except HashInsertAbort MVMIndexHashTableControl :=
  if c.max_items ≤ c.cur_items then
    match maybe_grow_hash hf c list with
    | .ok c' => hash_insert_internal hf c' list idx
    | .error err => .error err
  else hash_insert_internal hf c list idx

/-- A fold of `MVM_index_hash_insert_nocheck` over a list of indices. -/
def runInserts (hf : Nat → Nat) (list : List Nat) :
    List Nat → MVMIndexHashTableControl →
    Except HashInsertAbort MVMIndexHashTableControl
  | [], c => .ok c
  | idx :: rest, c =>
    match MVM_index_hash_insert_nocheck hf c list idx with
    | .ok c' => runInserts hf list rest c'
    | .error err => .error err

/-- The occupied entries of a metadata/entries pair, in slot order. -/
def contentsList (md en : List Nat) : List Nat :=
  ((md.zip en).filter (fun p => p.1 ≠ 0)).map Prod.snd

/-- The multiset of stored indices: the entry of every occupied slot. The
zip stops before the sentinel byte, which has no entry. -/
def contents (c : MVMIndexHashTableControl) : Multiset Nat :=
  ↑(contentsList c.metadata c.entries)

/-- A slot either is empty or holds a probe distance that maps it to a
existing home slot (`home = i + 1 - m < official_size`), and — unless a
previous insertion already zeroed `max_items` — lies strictly below
`max_probe_distance`. -/
def slotOK (c : MVMIndexHashTableControl) (i : Nat) : Bool :=
  (c.metadata.getD i 0 == 0) ||
  (decide (c.metadata.getD i 0 ≤ i + 1) &&
   decide (i + 1 - c.metadata.getD i 0 < 2 ^ c.official_size_log2) &&
   ((c.max_items == 0) || decide (c.metadata.getD i 0 < c.max_probe_distance)))

/-- The hash-table invariant: shift/size coherence, the probe-distance cap,
the layout of the metadata and entries regions, the sentinel, and
per-slot validity. Established by `hash_allocate_common` and preserved by
insertion. -/
def hashInv (c : MVMIndexHashTableControl) : Bool :=
  (decide (3 ≤ c.official_size_log2)) &&
  (c.key_right_shift == 64 - c.official_size_log2) &&
  (c.max_probe_distance == c.max_probe_distance_limit) &&
  (decide (2 ≤ c.max_probe_distance)) &&
  (c.metadata.length == 2 ^ c.official_size_log2 + c.max_probe_distance_limit + 1) &&
  (c.entries.length + 1 == c.metadata.length) &&
  (c.metadata.getD (c.metadata.length - 1) 0 == 1) &&
  (List.range (c.metadata.length - 1)).all (slotOK c)

/-- The walk of the claim "whenever the probe loop reaches a slot whose
stored probe distance equals the candidate's current probe distance, the
insertion aborts": mirrors `insertLoop`'s walk and reports whether a tie
(`*metadata == probe_distance`) is ever reached. -/
def reachesTieLoop (c : MVMIndexHashTableControl) : Nat → Nat → Nat → Bool
  | _, _, 0 => false
  | pos, pd, fuel + 1 =>
    match c.metadata.get? pos with
    | none => false
    | some m =>
      if m < pd then false
      else if m = pd then true
      else reachesTieLoop c (pos + 1) (pd + 1) fuel

/-- `reachesTieLoop` started the way `hash_insert_internal` starts its probe
loop. -/
def reachesTie (hf : Nat → Nat) (c : MVMIndexHashTableControl) (list : List Nat)
    (idx : Nat) : Bool :=
  reachesTieLoop c (homeSlot hf c (list.getD idx 0)) 1 (c.metadata.length + 1)

/-- The walk that mirrors `insertLoop`'s duplicate test: reports whether the
probe walk reaches a tie slot whose stored entry equals `idx`. -/
def tieDupLoop (c : MVMIndexHashTableControl) (idx : Nat) : Nat → Nat → Nat → Bool
  | _, _, 0 => false
  | pos, pd, fuel + 1 =>
    match c.metadata.get? pos with
    | none => false
    | some m =>
      if m < pd then false
      else if m = pd ∧ c.entries.getD pos 0 = idx then true
      else tieDupLoop c idx (pos + 1) (pd + 1) fuel

/-- `tieDupLoop` started the way `hash_insert_internal` starts its probe
loop. -/
def tieDup (hf : Nat → Nat) (c : MVMIndexHashTableControl) (list : List Nat)
    (idx : Nat) : Bool :=
  tieDupLoop c idx (homeSlot hf c (list.getD idx 0)) 1 (c.metadata.length + 1)

/-- Extract the success value of an insertion run. -/
def getOk (r : Except HashInsertAbort MVMIndexHashTableControl)
    (d : MVMIndexHashTableControl) : MVMIndexHashTableControl :=
  match r with
  | .ok c => c
  | .error _ => d

/-! ## GC orchestrator: the blocked-thread transition -/

/-- The per-thread `gc_status` word. -/
inductive MVMGCStatus : Type where
  | none : MVMGCStatus
  | interrupt : MVMGCStatus
  | unable : MVMGCStatus
  | stolen : MVMGCStatus
deriving DecidableEq, Repr

/-- What `MVM_gc_mark_thread_blocked` does from the thread's point of view. -/
inductive BlockOutcome : Type where
  | blocked : BlockOutcome
  | enteredGC : BlockOutcome
  | panicked : BlockOutcome
deriving DecidableEq, Repr

/-- `apr_atomic_cas32(&word, val, cmp)`: writes `val` when the current value
is `cmp`; returns (new word value, observed old value). -/
def cas32 (current val cmp : MVMGCStatus) : MVMGCStatus × MVMGCStatus :=
  if current = cmp then (val, current) else (current, current)

/-- `MVM_gc_mark_thread_blocked` from the GC orchestrator source. The CAS
observes `st_at_cas`; on CAS failure the code re-reads `tc->gc_status`,
observing `st_at_reread` (concurrent writers may have changed it in
between). Returns the thread's status word as this function leaves it, and
the outcome: return normally (now UNABLE), enter the GC run via
`MVM_gc_enter_from_interupt`, or `MVM_panic`. -/
def MVM_gc_mark_thread_blocked (st_at_cas st_at_reread : MVMGCStatus) :
    MVMGCStatus × BlockOutcome :=
  let r := cas32 st_at_cas .unable .none
  if r.2 = .none then (r.1, .blocked)
  else if st_at_reread = .interrupt then (st_at_reread, .enteredGC)
  else (st_at_reread, .panicked)

/-- What one successful run of the probe loop guarantees: sizes and
configuration fields preserved, `max_items` either untouched or zeroed by
the overflow guard, one more item, the stored multiset grown by exactly the
inserted index, the sentinel intact, and every slot still empty or holding
a probe distance that maps it to a real home slot and stays below
`max_probe_distance` unless `max_items` was zeroed. -/
def InsertOutcome (c c' : MVMIndexHashTableControl) (idx : Nat) : Prop :=
  c'.metadata.length = c.metadata.length ∧
  c'.entries.length = c.entries.length ∧
  c'.official_size_log2 = c.official_size_log2 ∧
  c'.key_right_shift = c.key_right_shift ∧
  c'.max_probe_distance = c.max_probe_distance ∧
  c'.max_probe_distance_limit = c.max_probe_distance_limit ∧
  (c'.max_items = c.max_items ∨ c'.max_items = 0) ∧
  c'.cur_items = c.cur_items + 1 ∧
  contents c' = idx ::ₘ contents c ∧
  c'.metadata.getD (c'.metadata.length - 1) 0 = 1 ∧
  (∀ i, i < c'.metadata.length - 1 →
    c'.metadata.getD i 0 = 0 ∨
    (c'.metadata.getD i 0 ≤ i + 1 ∧
     i + 1 - c'.metadata.getD i 0 < 2 ^ c.official_size_log2 ∧
     (c'.max_items = 0 ∨ c'.metadata.getD i 0 < c.max_probe_distance)))

/-! ## Concrete example inputs used by the witnesses and counterexamples -/

/-- The identity hash over string contents, used in concrete runs. -/
def exampleHashFn : Nat → Nat := fun s => s

/-- A freshly built minimum-size table. -/
def exampleTable0 : MVMIndexHashTableControl := MVM_index_hash_build 0 0

/-- `exampleTable0` after inserting index 0 keyed by the string 5: the home
slot of key 5 holds probe distance 1. -/
def exampleTableTie : MVMIndexHashTableControl :=
  getOk (hash_insert_internal exampleHashFn exampleTable0 [5, 5] 0) exampleTable0

/-- Inserting index 1 (whose key 5 collides with index 0's key) into
`exampleTableTie`: the probe loop meets a tie and carries on. -/
def exampleTableTieAfter : MVMIndexHashTableControl :=
  getOk (hash_insert_internal exampleHashFn exampleTableTie [5, 5] 1) exampleTable0

/-- `exampleTableTie` after a growth event, used concretely by witnesses. -/
def exampleGrown : MVMIndexHashTableControl :=
  getOk (maybe_grow_hash exampleHashFn exampleTableTie [5, 5]) exampleTable0

/-- The fresh minimum-size table after inserting indices 0, 1, 2 keyed by
the strings 5, 6, 7. -/
def exampleRunResult : MVMIndexHashTableControl :=
  getOk (runInserts exampleHashFn [5, 6, 7] [0, 1, 2] exampleTable0) exampleTable0

/-! ## Lemmas: callsite basics -/

theorem csKey_markInterned (cs : MVMCallsite) : csKey (markInterned cs) = csKey cs := by
  cases cs
  rfl

theorem wf_markInterned (cs : MVMCallsite) : (markInterned cs).wf = cs.wf := by
  cases cs
  rfl

theorem flag_count_markInterned (cs : MVMCallsite) :
    (markInterned cs).flag_count = cs.flag_count := by
  cases cs
  rfl

theorem has_flattening_markInterned (cs : MVMCallsite) :
    (markInterned cs).has_flattening = cs.has_flattening := by
  cases cs
  rfl

theorem arg_names_markInterned (cs : MVMCallsite) :
    (markInterned cs).arg_names = cs.arg_names := by
  cases cs
  rfl

theorem num_nameds_markInterned (cs : MVMCallsite) :
    MVM_callsite_num_nameds (markInterned cs) = MVM_callsite_num_nameds cs := by
  cases cs
  rfl

theorem internEqb_iff (a b : MVMCallsite) : internEqb a b = true ↔ csKey a = csKey b := by
  simp [internEqb]

theorem internEqb_self (a : MVMCallsite) : internEqb a a = true := by
  simp [internEqb]

theorem wf_flags_len {cs : MVMCallsite} (h : cs.wf = true) :
    cs.arg_flags.length = cs.flag_count := by
  simp only [MVMCallsite.wf, Bool.and_eq_true, beq_iff_eq] at h
  exact h.1.1.1

theorem wf_num_pos {cs : MVMCallsite} (h : cs.wf = true) :
    cs.num_pos = numLeadingPositionals cs.arg_flags := by
  simp only [MVMCallsite.wf, Bool.and_eq_true, beq_iff_eq] at h
  exact h.1.1.2

theorem wf_arg_count {cs : MVMCallsite} (h : cs.wf = true) :
    cs.arg_count = cs.flag_count := by
  simp only [MVMCallsite.wf, Bool.and_eq_true, beq_iff_eq] at h
  exact h.2

theorem wf_names_len {cs : MVMCallsite} {l : List MVMStr} (h : cs.wf = true)
    (hl : cs.arg_names = some l) : l.length = cs.flag_count - cs.num_pos := by
  simp only [MVMCallsite.wf, Bool.and_eq_true, beq_iff_eq, hl] at h
  exact h.1.2

theorem numLeadingPositionals_le (flags : List Nat) :
    numLeadingPositionals flags ≤ flags.length := by
  unfold numLeadingPositionals
  induction flags with
  | nil => simp
  | cons x xs ih =>
    by_cases h : flagIsNamed x
    · simp [List.takeWhile, h]
    · simp only [List.takeWhile, h, Bool.not_false, List.length_cons]
      omega

theorem wf_num_pos_le {cs : MVMCallsite} (h : cs.wf = true) :
    cs.num_pos ≤ cs.flag_count := by
  rw [wf_num_pos h, ← wf_flags_len h]
  exact numLeadingPositionals_le _

/-- The scan predicate of `try_intern` agrees with interned-equality on
well-formed callsites of the same arity. -/
theorem callsites_equal_bridge {e cs : MVMCallsite}
    (he : e.wf = true) (hc : cs.wf = true) (hk : e.flag_count = cs.flag_count) :
    callsites_equal e cs cs.flag_count (MVM_callsite_num_nameds cs) = internEqb e cs := by
  have hel : e.arg_flags.length = cs.flag_count := by rw [wf_flags_len he, hk]
  have hcl : cs.arg_flags.length = cs.flag_count := wf_flags_len hc
  have hte : e.arg_flags.take cs.flag_count = e.arg_flags :=
    List.take_of_length_le (le_of_eq hel)
  have htc : cs.arg_flags.take cs.flag_count = cs.arg_flags :=
    List.take_of_length_le (le_of_eq hcl)
  by_cases hfl : e.arg_flags = cs.arg_flags
  · have hnn : MVM_callsite_num_nameds e = MVM_callsite_num_nameds cs := by
      unfold MVM_callsite_num_nameds
      rw [hk, wf_num_pos he, wf_num_pos hc, hfl]
    have h1 : callsites_equal e cs cs.flag_count (MVM_callsite_num_nameds cs)
        = (namesSeq e == namesSeq cs) := by
      unfold callsites_equal namesSeq
      rw [hte, htc, hfl, hnn]
      simp
    have h2 : internEqb e cs = (namesSeq e == namesSeq cs) := by
      rw [Bool.eq_iff_iff, internEqb_iff, beq_iff_eq]
      constructor
      · intro hk2
        exact congrArg Prod.snd hk2
      · intro hn
        unfold csKey
        rw [hfl, hn]
    rw [h1, h2]
  · have h2 : internEqb e cs = false := by
      rw [internEqb, beq_eq_false_iff_ne]
      intro hcontra
      apply hfl
      exact congrArg Prod.fst hcontra
    have hne0 : cs.flag_count ≠ 0 := by
      intro h0
      apply hfl
      have : e.arg_flags = [] := List.eq_nil_of_length_eq_zero (by rw [hel, h0])
      have hc0 : cs.arg_flags = [] := List.eq_nil_of_length_eq_zero (by rw [hcl, h0])
      rw [this, hc0]
    have h1 : callsites_equal e cs cs.flag_count (MVM_callsite_num_nameds cs) = false := by
      unfold callsites_equal
      rw [hte, htc]
      simp [hne0, hfl]
    rw [h1, h2]

/-! ## Lemmas: the bucket scan and the store -/

theorem findMatch_congr {p q : MVMCallsite → Bool} (l : List MVMCallsite)
    (h : ∀ x ∈ l, p x = q x) : findMatch p l = findMatch q l := by
  induction l with
  | nil => rfl
  | cons x xs ih =>
    simp only [findMatch]
    rw [h x (by simp), ih (fun y hy => h y (by simp [hy]))]

theorem findMatch_cons_pos {p : MVMCallsite → Bool} {x : MVMCallsite}
    (xs : List MVMCallsite) (hx : p x = true) : findMatch p (x :: xs) = some 0 := by
  simp [findMatch, hx]

theorem findMatch_cons_neg {p : MVMCallsite → Bool} {x : MVMCallsite}
    (xs : List MVMCallsite) (hx : p x = false) :
    findMatch p (x :: xs) = (findMatch p xs).map (· + 1) := by
  simp [findMatch, hx]

theorem findMatch_none_iff {p : MVMCallsite → Bool} {l : List MVMCallsite} :
    findMatch p l = none ↔ ∀ x ∈ l, p x = false := by
  induction l with
  | nil => simp [findMatch]
  | cons x xs ih =>
    by_cases hx : p x
    · simp [findMatch_cons_pos xs hx]
      exact fun h => by simp [h] at hx
    · rw [findMatch_cons_neg xs (by simpa using hx), Option.map_eq_none']
      constructor
      · intro hn y hy
        rcases List.mem_cons.mp hy with hy | hy
        · rw [hy]
          simpa using hx
        · exact ih.mp hn y hy
      · intro hall
        exact ih.mpr fun y hy => hall y (List.mem_cons_of_mem _ hy)

theorem findMatch_some {p : MVMCallsite → Bool} {l : List MVMCallsite} {i : Nat}
    (h : findMatch p l = some i) :
    i < l.length ∧ p (l.getD i defaultCallsite) = true := by
  induction l generalizing i with
  | nil => simp [findMatch] at h
  | cons x xs ih =>
    by_cases hx : p x
    · rw [findMatch_cons_pos xs hx] at h
      cases h
      exact ⟨by simp, by simpa using hx⟩
    · rw [findMatch_cons_neg xs (by simpa using hx)] at h
      cases hfm : findMatch p xs with
      | none => rw [hfm] at h; simp at h
      | some j =>
        rw [hfm] at h
        have hji : j + 1 = i := by simpa using h
        rcases ih hfm with ⟨hlt, hp⟩
        subst hji
        constructor
        · simpa using hlt
        · simpa using hp

theorem findMatch_append_last {p : MVMCallsite → Bool} {l : List MVMCallsite}
    {x : MVMCallsite} (hl : findMatch p l = none) (hx : p x = true) :
    findMatch p (l ++ [x]) = some l.length := by
  induction l with
  | nil => simp [findMatch, hx]
  | cons y ys ih =>
    have hy : p y = false := (findMatch_none_iff.mp hl) y (by simp)
    have hys : findMatch p ys = none :=
      findMatch_none_iff.mpr (fun z hz => (findMatch_none_iff.mp hl) z (by simp [hz]))
    rw [List.cons_append, findMatch_cons_neg _ hy, ih hys]
    rfl

theorem getD_set_self {α : Type} (l : List α) (i : Nat) (a d : α) (h : i < l.length) :
    (l.set i a).getD i d = a := by
  induction l generalizing i with
  | nil => simp at h
  | cons x xs ih =>
    cases i with
    | zero => rfl
    | succ n =>
      simp only [List.set_cons_succ, List.getD_cons_succ]
      exact ih n (by simpa using h)

theorem getD_set_ne {α : Type} (l : List α) (i j : Nat) (a d : α) (h : i ≠ j) :
    (l.set i a).getD j d = l.getD j d := by
  induction l generalizing i j with
  | nil => simp [List.getD]
  | cons x xs ih =>
    cases i with
    | zero =>
      cases j with
      | zero => exact absurd rfl h
      | succ m => rfl
    | succ n =>
      cases j with
      | zero => rfl
      | succ m =>
        simp only [List.set_cons_succ, List.getD_cons_succ]
        exact ih n m (by omega)

theorem getD_append_left {α : Type} (A B : List α) (j : Nat) (d : α) (h : j < A.length) :
    (A ++ B).getD j d = A.getD j d := by
  induction A generalizing j with
  | nil => simp at h
  | cons x xs ih =>
    cases j with
    | zero => rfl
    | succ n =>
      simp only [List.cons_append, List.getD_cons_succ]
      exact ih n (by simpa using h)

theorem getD_append_length {α : Type} (l : List α) (x : α) (d : α) :
    (l ++ [x]).getD l.length d = x := by
  induction l with
  | nil => rfl
  | cons y ys ih => simp [ih]

theorem getD_eq_default_of_le {α : Type} (l : List α) (j : Nat) (d : α)
    (h : l.length ≤ j) : l.getD j d = d := by
  induction l generalizing j with
  | nil => simp [List.getD]
  | cons x xs ih =>
    cases j with
    | zero => simp at h
    | succ n =>
      simp only [List.getD_cons_succ]
      exact ih n (by simpa using h)

theorem getD_append_pad {α : Type} (A : List α) (m j : Nat) (d : α)
    (h : A.length ≤ j) : (A ++ List.replicate m d).getD j d = d := by
  induction A generalizing j with
  | nil =>
    simp only [List.nil_append]
    by_cases hj : j < m
    · rw [List.getD_eq_getElem?_getD, List.getElem?_replicate]
      simp [hj]
    · exact getD_eq_default_of_le _ _ _ (by simpa using hj)
  | cons x xs ih =>
    cases j with
    | zero => simp at h
    | succ n =>
      simp only [List.cons_append, List.getD_cons_succ]
      exact ih n (by simpa using h)

theorem getD_mem_of_lt {α : Type} (l : List α) (i : Nat) (d : α) (h : i < l.length) :
    l.getD i d ∈ l := by
  induction l generalizing i with
  | nil => simp at h
  | cons x xs ih =>
    cases i with
    | zero => simp [List.getD]
    | succ n =>
      simp only [List.getD_cons_succ]
      exact List.mem_cons_of_mem _ (ih n (by simpa using h))

theorem bucket_setBucket_self (s : MVMCallsiteInterns) (k : Nat) (l : List MVMCallsite) :
    (s.setBucket k l).bucket k = l := by
  unfold MVMCallsiteInterns.setBucket MVMCallsiteInterns.bucket
  apply getD_set_self
  simp only [List.length_append, List.length_replicate]
  omega

theorem bucket_setBucket_ne (s : MVMCallsiteInterns) (k j : Nat) (l : List MVMCallsite)
    (h : j ≠ k) : (s.setBucket k l).bucket j = s.bucket j := by
  unfold MVMCallsiteInterns.setBucket MVMCallsiteInterns.bucket
  rw [getD_set_ne _ _ _ _ _ (fun he => h he.symm)]
  by_cases hj : j < s.by_arity.length
  · exact getD_append_left _ _ _ _ hj
  · rw [getD_append_pad _ _ _ _ (by omega), getD_eq_default_of_le _ _ _ (by omega)]

theorem bucket_of_len_le (s : MVMCallsiteInterns) (k : Nat)
    (h : s.by_arity.length ≤ k) : s.bucket k = [] :=
  getD_eq_default_of_le _ _ _ h

theorem internInv_iff (s : MVMCallsiteInterns) :
    internInv s = true ↔ ∀ k, ∀ e ∈ s.bucket k, bucketElemOK k e = true := by
  unfold internInv
  rw [List.all_eq_true]
  constructor
  · intro h k e he
    by_cases hk : k < s.by_arity.length
    · have := h k (List.mem_range.mpr hk)
      rw [List.all_eq_true] at this
      exact this e he
    · rw [bucket_of_len_le s k (by omega)] at he
      simp at he
  · intro h k _
    rw [List.all_eq_true]
    exact fun e he => h k e he

theorem internInv_setBucket_append (s : MVMCallsiteInterns) (k : Nat) (x : MVMCallsite)
    (hinv : internInv s = true) (hx : bucketElemOK k x = true) :
    internInv (s.setBucket k (s.bucket k ++ [x])) = true := by
  rw [internInv_iff] at hinv ⊢
  intro j e he
  by_cases hj : j = k
  · subst hj
    rw [bucket_setBucket_self] at he
    rcases List.mem_append.mp he with he | he
    · exact hinv j e he
    · rw [List.mem_singleton.mp he]
      exact hx
  · rw [bucket_setBucket_ne s k j _ hj] at he
    exact hinv j e he

theorem setBucket_append_ne_self (s : MVMCallsiteInterns) (k : Nat) (x : MVMCallsite) :
    s.setBucket k (s.bucket k ++ [x]) ≠ s := by
  intro h
  have : (s.setBucket k (s.bucket k ++ [x])).bucket k = s.bucket k := by rw [h]
  rw [bucket_setBucket_self] at this
  have : (s.bucket k ++ [x]).length = (s.bucket k).length := by rw [this]
  simp at this

/-! ## Lemmas: `try_intern` -/

/-- In the no-precondition case, `try_intern` is the bucket scan with the
interned-equality predicate (given the store invariant and a well-formed
argument, via `callsites_equal_bridge`). -/
theorem try_intern_scan (s : MVMCallsiteInterns) (cs : MVMCallsite)
    (hinv : internInv s = true) (hwf : cs.wf = true)
    (hfl : cs.has_flattening = false) (hlim : cs.flag_count < MVM_INTERN_ARITY_LIMIT)
    (hpres : MVM_callsite_num_nameds cs = 0 ∨ cs.arg_names ≠ none) :
    MVM_callsite_try_intern s cs =
      (match findMatch (fun e => internEqb e cs) (s.bucket cs.flag_count) with
       | some i => (s, .interned cs.flag_count i)
       | none =>
         (s.setBucket cs.flag_count (s.bucket cs.flag_count ++ [markInterned cs]),
          .interned cs.flag_count (s.bucket cs.flag_count).length)) := by
  unfold MVM_callsite_try_intern
  rw [if_neg (by simp [hfl]), if_neg (by omega),
    if_neg (fun hc => by
      rcases hpres with h | h
      · omega
      · exact h hc.2)]
  rw [findMatch_congr (s.bucket cs.flag_count) (fun e he => ?_)]
  have hOK := (internInv_iff s).mp hinv cs.flag_count e he
  simp only [bucketElemOK, Bool.and_eq_true, beq_iff_eq] at hOK
  exact callsites_equal_bridge hOK.1.1.1 hwf hOK.1.1.2

/-- What `try_intern` guarantees for any non-flattening well-formed argument
(preconditioned no-ops included): the invariant is preserved and the final
pointer designates a well-formed, non-flattening callsite interned-equal to
the argument. -/
theorem try_intern_spec (s : MVMCallsiteInterns) (cs : MVMCallsite)
    (hinv : internInv s = true) (hwf : cs.wf = true)
    (hfl : cs.has_flattening = false) :
    internInv (MVM_callsite_try_intern s cs).1 = true ∧
    internEqb (derefPtr (MVM_callsite_try_intern s cs).1 (MVM_callsite_try_intern s cs).2) cs
      = true ∧
    (derefPtr (MVM_callsite_try_intern s cs).1 (MVM_callsite_try_intern s cs).2).wf = true ∧
    (derefPtr (MVM_callsite_try_intern s cs).1
      (MVM_callsite_try_intern s cs).2).has_flattening = false := by
  by_cases hlim : MVM_INTERN_ARITY_LIMIT ≤ cs.flag_count
  · unfold MVM_callsite_try_intern
    rw [if_neg (by simp [hfl]), if_pos hlim]
    exact ⟨hinv, internEqb_self cs, hwf, hfl⟩
  · by_cases hpres : 0 < MVM_callsite_num_nameds cs ∧ cs.arg_names = none
    · unfold MVM_callsite_try_intern
      rw [if_neg (by simp [hfl]), if_neg hlim, if_pos hpres]
      exact ⟨hinv, internEqb_self cs, hwf, hfl⟩
    · rw [try_intern_scan s cs hinv hwf hfl (by omega)
        (by rcases not_and_or.mp hpres with h | h
            · left
              omega
            · right
              exact h)]
      cases hfm : findMatch (fun e => internEqb e cs) (s.bucket cs.flag_count) with
      | some i =>
        rcases findMatch_some hfm with ⟨hlt, hp⟩
        have he : (s.bucket cs.flag_count).getD i defaultCallsite ∈ s.bucket cs.flag_count :=
          getD_mem_of_lt _ _ _ hlt
        have hOK := (internInv_iff s).mp hinv cs.flag_count _ he
        simp only [bucketElemOK, Bool.and_eq_true, beq_iff_eq] at hOK
        exact ⟨hinv, hp, hOK.1.1.1, hOK.1.2⟩
      | none =>
        have hOKx : bucketElemOK cs.flag_count (markInterned cs) = true := by
          simp only [bucketElemOK, Bool.and_eq_true, beq_iff_eq]
          refine ⟨⟨⟨by rw [wf_markInterned]; exact hwf, by rw [flag_count_markInterned]⟩,
            by rw [has_flattening_markInterned]; exact hfl⟩, ?_⟩
          rw [Bool.or_eq_true, beq_iff_eq, num_nameds_markInterned, arg_names_markInterned]
          rcases not_and_or.mp hpres with h | h
          · left
            omega
          · right
            rcases hsome : cs.arg_names with _ | l
            · exact absurd hsome h
            · rfl
        refine ⟨internInv_setBucket_append s cs.flag_count (markInterned cs) hinv hOKx, ?_⟩
        have hd : derefPtr
            (s.setBucket cs.flag_count (s.bucket cs.flag_count ++ [markInterned cs]))
            (.interned cs.flag_count (s.bucket cs.flag_count).length) = markInterned cs := by
          show ((s.setBucket cs.flag_count
            (s.bucket cs.flag_count ++ [markInterned cs])).bucket cs.flag_count).getD
              (s.bucket cs.flag_count).length defaultCallsite = markInterned cs
          rw [bucket_setBucket_self]
          exact getD_append_length _ _ _
        rw [hd]
        refine ⟨?_, by rw [wf_markInterned]; exact hwf,
          by rw [has_flattening_markInterned]; exact hfl⟩
        rw [internEqb_iff, csKey_markInterned]

theorem bucketElemOK_markInterned (cs : MVMCallsite) (hwf : cs.wf = true)
    (hfl : cs.has_flattening = false)
    (hpres : MVM_callsite_num_nameds cs = 0 ∨ cs.arg_names ≠ none) :
    bucketElemOK cs.flag_count (markInterned cs) = true := by
  simp only [bucketElemOK, Bool.and_eq_true, beq_iff_eq]
  refine ⟨⟨⟨by rw [wf_markInterned]; exact hwf, by rw [flag_count_markInterned]⟩,
    by rw [has_flattening_markInterned]; exact hfl⟩, ?_⟩
  rw [Bool.or_eq_true, beq_iff_eq, num_nameds_markInterned, arg_names_markInterned]
  rcases hpres with h | h
  · left
    exact h
  · right
    rcases hsome : cs.arg_names with _ | l
    · exact absurd hsome h
    · rfl

theorem fc_eq_of_key_eq {a b : MVMCallsite} (hwa : a.wf = true) (hwb : b.wf = true)
    (hk : csKey a = csKey b) : a.flag_count = b.flag_count := by
  rw [← wf_flags_len hwa, ← wf_flags_len hwb]
  exact congrArg (fun l => l.length) (congrArg Prod.fst hk)

theorem internEqb_markInterned_self (cs : MVMCallsite) :
    internEqb (markInterned cs) cs = true := by
  rw [internEqb_iff, csKey_markInterned]

/-- C1 — Intern identity: for two non-flattening callsites below the arity
limit (names present whenever named arguments exist, both satisfying the
data-model invariants, against any store satisfying the store invariant),
after `try_intern(&a)` and then `try_intern(&b)` the resulting pointers are
equal iff the callsites are structurally equal (identical `arg_flags`
sequence and pairwise string-equal `arg_names`). -/
theorem MVM_callsite_try_intern_identity (s s1 s2 : MVMCallsiteInterns)
    (a b : MVMCallsite) (pa pb : InternPtr)
    (hinv : internInv s = true)
    (hwa : a.wf = true) (hwb : b.wf = true)
    (hfa : a.has_flattening = false) (hfb : b.has_flattening = false)
    (hla : a.flag_count < MVM_INTERN_ARITY_LIMIT)
    (hlb : b.flag_count < MVM_INTERN_ARITY_LIMIT)
    (hpa : MVM_callsite_num_nameds a = 0 ∨ a.arg_names ≠ none)
    (hpb : MVM_callsite_num_nameds b = 0 ∨ b.arg_names ≠ none)
    (h1 : MVM_callsite_try_intern s a = (s1, pa))
    (h2 : MVM_callsite_try_intern s1 b = (s2, pb)) :
    pa = pb ↔ internEqb a b = true := by
  have hscanA := try_intern_scan s a hinv hwa hfa hla hpa
  cases hfmA : findMatch (fun e => internEqb e a) (s.bucket a.flag_count) with
  | some i =>
    have hA : MVM_callsite_try_intern s a = (s, .interned a.flag_count i) := by
      rw [hscanA, hfmA]
    have h1' : (s, InternPtr.interned a.flag_count i) = (s1, pa) := hA.symm.trans h1
    have hs1 : s = s1 := congrArg Prod.fst h1'
    have hp1 : InternPtr.interned a.flag_count i = pa := congrArg Prod.snd h1'
    subst hs1
    rcases findMatch_some hfmA with ⟨hiA, hpiA⟩
    have hkeyA : csKey ((s.bucket a.flag_count).getD i defaultCallsite) = csKey a :=
      (internEqb_iff _ _).mp hpiA
    have hscanB := try_intern_scan s b hinv hwb hfb hlb hpb
    cases hfmB : findMatch (fun e => internEqb e b) (s.bucket b.flag_count) with
    | some j =>
      have hB : MVM_callsite_try_intern s b = (s, .interned b.flag_count j) := by
        rw [hscanB, hfmB]
      have h2' : (s, InternPtr.interned b.flag_count j) = (s2, pb) := hB.symm.trans h2
      have hp2 : InternPtr.interned b.flag_count j = pb := congrArg Prod.snd h2'
      rcases findMatch_some hfmB with ⟨hjB, hpjB⟩
      have hkeyB : csKey ((s.bucket b.flag_count).getD j defaultCallsite) = csKey b :=
        (internEqb_iff _ _).mp hpjB
      rw [← hp1, ← hp2, internEqb_iff]
      constructor
      · intro hpp
        have hfc : a.flag_count = b.flag_count := by
          injection hpp
        have hij : i = j := by
          injection hpp
        rw [← hkeyA, hfc, hij, hkeyB]
      · intro hkey
        have hfc : a.flag_count = b.flag_count := fc_eq_of_key_eq hwa hwb hkey
        have hpeq : (fun e => internEqb e b) = (fun e => internEqb e a) := by
          funext e
          unfold internEqb
          rw [hkey]
        rw [hpeq, ← hfc, hfmA] at hfmB
        have hij : i = j := by injection hfmB
        rw [hfc, hij]
    | none =>
      have hB : MVM_callsite_try_intern s b =
          (s.setBucket b.flag_count (s.bucket b.flag_count ++ [markInterned b]),
           .interned b.flag_count (s.bucket b.flag_count).length) := by
        rw [hscanB, hfmB]
      have h2' := hB.symm.trans h2
      have hp2 : InternPtr.interned b.flag_count (s.bucket b.flag_count).length = pb :=
        congrArg Prod.snd h2'
      rw [← hp1, ← hp2]
      constructor
      · intro hpp
        have hfc : a.flag_count = b.flag_count := by injection hpp
        have hib : i = (s.bucket b.flag_count).length := by injection hpp
        rw [hfc] at hiA
        omega
      · intro hkey
        rw [internEqb_iff] at hkey
        have hfc : a.flag_count = b.flag_count := fc_eq_of_key_eq hwa hwb hkey
        have hpeq : (fun e => internEqb e b) = (fun e => internEqb e a) := by
          funext e
          unfold internEqb
          rw [hkey]
        rw [hpeq, ← hfc, hfmA] at hfmB
        exact absurd hfmB (by simp)
  | none =>
    have hA : MVM_callsite_try_intern s a =
        (s.setBucket a.flag_count (s.bucket a.flag_count ++ [markInterned a]),
         .interned a.flag_count (s.bucket a.flag_count).length) := by
      rw [hscanA, hfmA]
    have h1' := hA.symm.trans h1
    have hs1 : s.setBucket a.flag_count (s.bucket a.flag_count ++ [markInterned a]) = s1 :=
      congrArg Prod.fst h1'
    have hp1 : InternPtr.interned a.flag_count (s.bucket a.flag_count).length = pa :=
      congrArg Prod.snd h1'
    have hinv1 : internInv s1 = true := by
      rw [← hs1]
      exact internInv_setBucket_append s a.flag_count (markInterned a) hinv
        (bucketElemOK_markInterned a hwa hfa hpa)
    have hbkt : s1.bucket a.flag_count = s.bucket a.flag_count ++ [markInterned a] := by
      rw [← hs1]
      exact bucket_setBucket_self s a.flag_count _
    have hscanB := try_intern_scan s1 b hinv1 hwb hfb hlb hpb
    cases hfmB : findMatch (fun e => internEqb e b) (s1.bucket b.flag_count) with
    | some j =>
      have hB : MVM_callsite_try_intern s1 b = (s1, .interned b.flag_count j) := by
        rw [hscanB, hfmB]
      have h2' := hB.symm.trans h2
      have hp2 : InternPtr.interned b.flag_count j = pb := congrArg Prod.snd h2'
      rcases findMatch_some hfmB with ⟨hjB, hpjB⟩
      have hkeyB : csKey ((s1.bucket b.flag_count).getD j defaultCallsite) = csKey b :=
        (internEqb_iff _ _).mp hpjB
      rw [← hp1, ← hp2]
      constructor
      · intro hpp
        have hfc : a.flag_count = b.flag_count := by injection hpp
        have hib : (s.bucket a.flag_count).length = j := by injection hpp
        rw [internEqb_iff]
        rw [← hkeyB, ← hib, ← hfc, hbkt, getD_append_length, csKey_markInterned]
      · intro hkey
        rw [internEqb_iff] at hkey
        have hfc : a.flag_count = b.flag_count := fc_eq_of_key_eq hwa hwb hkey
        have hpeq : (fun e => internEqb e b) = (fun e => internEqb e a) := by
          funext e
          unfold internEqb
          rw [hkey]
        have hnew : findMatch (fun e => internEqb e a)
            (s.bucket a.flag_count ++ [markInterned a]) =
            some (s.bucket a.flag_count).length :=
          findMatch_append_last hfmA (internEqb_markInterned_self a)
        rw [hpeq, ← hfc, hbkt] at hfmB
        rw [hfmB] at hnew
        have : j = (s.bucket a.flag_count).length := by injection hnew
        rw [this, hfc]
    | none =>
      have hB : MVM_callsite_try_intern s1 b =
          (s1.setBucket b.flag_count (s1.bucket b.flag_count ++ [markInterned b]),
           .interned b.flag_count (s1.bucket b.flag_count).length) := by
        rw [hscanB, hfmB]
      have h2' := hB.symm.trans h2
      have hp2 : InternPtr.interned b.flag_count (s1.bucket b.flag_count).length = pb :=
        congrArg Prod.snd h2'
      rw [← hp1, ← hp2]
      constructor
      · intro hpp
        have hfc : a.flag_count = b.flag_count := by injection hpp
        have hib : (s.bucket a.flag_count).length = (s1.bucket b.flag_count).length := by
          injection hpp
        rw [← hfc, hbkt] at hib
        simp at hib
      · intro hkey
        rw [internEqb_iff] at hkey
        have hfc : a.flag_count = b.flag_count := fc_eq_of_key_eq hwa hwb hkey
        have hpeq : (fun e => internEqb e b) = (fun e => internEqb e a) := by
          funext e
          unfold internEqb
          rw [hkey]
        have hnew : findMatch (fun e => internEqb e a)
            (s.bucket a.flag_count ++ [markInterned a]) =
            some (s.bucket a.flag_count).length :=
          findMatch_append_last hfmA (internEqb_markInterned_self a)
        rw [hpeq, ← hfc, hbkt] at hfmB
        rw [hfmB] at hnew
        exact absurd hnew (by simp)

/-- C1 witness: both interns of the one-object callsite against the empty
store yield the same pointer, and the callsite is interned-equal to itself. -/
theorem MVM_callsite_try_intern_identity_witness :
    (internInv ⟨[]⟩ = true ∧
     (MVMCallsite.mk [1] 1 1 1 false false none none).wf = true ∧
     (MVMCallsite.mk [1] 1 1 1 false false none none).has_flattening = false ∧
     (MVMCallsite.mk [1] 1 1 1 false false none none).flag_count < MVM_INTERN_ARITY_LIMIT) ∧
    ((MVM_callsite_try_intern ⟨[]⟩ (MVMCallsite.mk [1] 1 1 1 false false none none)).2 =
       (MVM_callsite_try_intern
         (MVM_callsite_try_intern ⟨[]⟩ (MVMCallsite.mk [1] 1 1 1 false false none none)).1
         (MVMCallsite.mk [1] 1 1 1 false false none none)).2 ↔
     internEqb (MVMCallsite.mk [1] 1 1 1 false false none none)
       (MVMCallsite.mk [1] 1 1 1 false false none none) = true) :=
  ⟨⟨by decide, by decide, rfl, by decide⟩,
   MVM_callsite_try_intern_identity ⟨[]⟩ _ _
     (MVMCallsite.mk [1] 1 1 1 false false none none)
     (MVMCallsite.mk [1] 1 1 1 false false none none) _ _
     (by decide) (by decide) (by decide) rfl rfl (by decide) (by decide)
     (Or.inl rfl) (Or.inl rfl) rfl rfl⟩

/-- C7 — `try_intern` is a no-op (store untouched, `*cs_ptr` still the
caller's own descriptor, unchanged, hence unfreed and not marked interned)
exactly when the callsite has flattening, or its `flag_count` reaches
`MVM_INTERN_ARITY_LIMIT`, or it has named arguments but no `arg_names`. -/
theorem MVM_callsite_try_intern_noop_iff (s : MVMCallsiteInterns) (cs : MVMCallsite) :
    MVM_callsite_try_intern s cs = (s, .original cs) ↔
    (cs.has_flattening = true ∨ MVM_INTERN_ARITY_LIMIT ≤ cs.flag_count ∨
     (0 < MVM_callsite_num_nameds cs ∧ cs.arg_names = none)) := by
  constructor
  · intro h
    by_contra hc
    push_neg at hc
    obtain ⟨hfl, hlim, hpres⟩ := hc
    have hfl' : cs.has_flattening = false := by
      simpa using hfl
    cases hfm : findMatch
        (fun e => callsites_equal e cs cs.flag_count (MVM_callsite_num_nameds cs))
        (s.bucket cs.flag_count) with
    | some i =>
      have hEq : MVM_callsite_try_intern s cs = (s, .interned cs.flag_count i) := by
        unfold MVM_callsite_try_intern
        rw [if_neg (by simp [hfl']), if_neg (by omega),
          if_neg (fun hcon => hpres hcon.1 hcon.2), hfm]
      rw [hEq] at h
      have := congrArg Prod.snd h
      simp at this
    | none =>
      have hEq : MVM_callsite_try_intern s cs =
          (s.setBucket cs.flag_count (s.bucket cs.flag_count ++ [markInterned cs]),
           .interned cs.flag_count (s.bucket cs.flag_count).length) := by
        unfold MVM_callsite_try_intern
        rw [if_neg (by simp [hfl']), if_neg (by omega),
          if_neg (fun hcon => hpres hcon.1 hcon.2), hfm]
      rw [hEq] at h
      exact setBucket_append_ne_self s cs.flag_count (markInterned cs)
        (congrArg Prod.fst h)
  · intro h
    by_cases hf : cs.has_flattening
    · unfold MVM_callsite_try_intern
      rw [if_pos hf]
    · rcases h with h | h | h
      · exact absurd h hf
      · unfold MVM_callsite_try_intern
        rw [if_neg hf, if_pos h]
      · by_cases hl : MVM_INTERN_ARITY_LIMIT ≤ cs.flag_count
        · unfold MVM_callsite_try_intern
          rw [if_neg hf, if_pos hl]
        · unfold MVM_callsite_try_intern
          rw [if_neg hf, if_neg hl, if_pos h]

/-- C2 counterexample — copying a callsite whose `is_interned` flag is set
yields a copy whose `is_interned` flag is still set, contradicting "the
copy's `is_interned` flag is false regardless of `cs`". -/
theorem MVM_callsite_copy_interned_counterexample :
    (MVM_callsite_copy (.mk [1] 1 1 1 false true none none)).is_interned = true := rfl

/-- C2 amended — the copy is never placed in the interning store, but its
`is_interned` flag is copied verbatim from the source: it is false exactly
when the source's flag is false. -/
theorem MVM_callsite_copy_is_interned (cs : MVMCallsite) :
    (MVM_callsite_copy cs).is_interned = cs.is_interned := by
  cases cs with
  | mk f ac np fc hf ii wi an =>
    cases wi <;> cases an <;> simp [MVM_callsite_copy, MVMCallsite.is_interned]

/-! ## Lemmas: the derivation operators -/

theorem insertIdx_getD_eraseIdx (l : List Nat) (i : Nat) (h : i < l.length) :
    (l.eraseIdx i).insertIdx i (l.getD i 0) = l := by
  induction l generalizing i with
  | nil => simp at h
  | cons x xs ih =>
    cases i with
    | zero => rfl
    | succ n =>
      rw [List.eraseIdx_cons_succ, List.getD_cons_succ, List.insertIdx_succ_cons,
        ih n (by simpa using h)]

theorem numLeadingPositionals_cons_pos (x : Nat) (xs : List Nat)
    (hx : flagIsNamed x = false) :
    numLeadingPositionals (x :: xs) = numLeadingPositionals xs + 1 := by
  simp [numLeadingPositionals, List.takeWhile, hx]

theorem numLeadingPositionals_cons_neg (x : Nat) (xs : List Nat)
    (hx : flagIsNamed x = true) :
    numLeadingPositionals (x :: xs) = 0 := by
  simp [numLeadingPositionals, List.takeWhile, hx]

theorem numLeadingPositionals_eraseIdx (l : List Nat) (i : Nat)
    (h : i < numLeadingPositionals l) :
    numLeadingPositionals (l.eraseIdx i) = numLeadingPositionals l - 1 := by
  induction l generalizing i with
  | nil => simp [numLeadingPositionals] at h
  | cons x xs ih =>
    by_cases hx : flagIsNamed x
    · rw [numLeadingPositionals_cons_neg x xs hx] at h
      omega
    · rw [numLeadingPositionals_cons_pos x xs (by simpa using hx)] at h ⊢
      cases i with
      | zero => simp
      | succ n =>
        rw [List.eraseIdx_cons_succ,
          numLeadingPositionals_cons_pos x _ (by simpa using hx),
          ih n (by omega)]
        omega

theorem mk_wf (fl : List Nat) (ac np fc : Nat) (names : Option (List MVMStr))
    (h1 : fl.length = fc) (h2 : np = numLeadingPositionals fl)
    (h3 : ∀ l, names = some l → l.length = fc - np) (h4 : ac = fc) :
    (MVMCallsite.mk fl ac np fc false false none names).wf = true := by
  unfold MVMCallsite.wf
  simp only [MVMCallsite.arg_flags, MVMCallsite.arg_count, MVMCallsite.num_pos,
    MVMCallsite.flag_count, MVMCallsite.arg_names, Bool.and_eq_true, beq_iff_eq]
  refine ⟨⟨⟨h1, h2⟩, ?_⟩, h4⟩
  cases hn : names with
  | none => rfl
  | some l => simpa using h3 l hn

theorem namesSeq_mk_copy_nameds (src : MVMCallsite) (fl : List Nat) (ac np fc : Nat)
    (h : fc - np = src.flag_count - src.num_pos) :
    namesSeq (MVMCallsite.mk fl ac np fc false false none (copy_nameds src)) =
      namesSeq src := by
  cases src with
  | mk f0 ac0 np0 fc0 hf0 ii0 wi0 an0 =>
    simp only [MVMCallsite.flag_count, MVMCallsite.num_pos] at h
    rcases an0 with _ | l
    · simp [namesSeq, MVM_callsite_num_nameds, copy_nameds, MVMCallsite.arg_names,
        MVMCallsite.flag_count, MVMCallsite.num_pos]
    · simp only [namesSeq, MVM_callsite_num_nameds, copy_nameds, MVMCallsite.arg_names,
        MVMCallsite.flag_count, MVMCallsite.num_pos, Option.getD_some]
      rw [h, List.take_take]
      simp

theorem dropFlags_eq_eraseIdx (cs : MVMCallsite) (idx : Nat) (hwf : cs.wf = true) :
    dropFlags cs idx = cs.arg_flags.eraseIdx idx := by
  unfold dropFlags
  rw [List.take_of_length_le (le_of_eq (wf_flags_len hwf))]

theorem insertFlags_eq_insertIdx (cs : MVMCallsite) (idx flag : Nat)
    (hwf : cs.wf = true) :
    insertFlags cs idx flag = cs.arg_flags.insertIdx idx flag := by
  unfold insertFlags
  rw [List.take_of_length_le (le_of_eq (wf_flags_len hwf))]

/-- The descriptor `drop_positional` builds before interning. -/
theorem drop_new_wf (cs : MVMCallsite) (idx : Nat) (hwf : cs.wf = true)
    (hidx : idx < cs.num_pos) :
    (MVMCallsite.mk (dropFlags cs idx) (cs.arg_count - 1) (cs.num_pos - 1)
      (cs.flag_count - 1) false false none (copy_nameds cs)).wf = true := by
  have hnp := wf_num_pos hwf
  have hle := wf_num_pos_le hwf
  have hlen := wf_flags_len hwf
  apply mk_wf
  · rw [dropFlags_eq_eraseIdx cs idx hwf, List.length_eraseIdx]
    rw [if_pos (by omega)]
    rw [hlen]
  · rw [dropFlags_eq_eraseIdx cs idx hwf,
      numLeadingPositionals_eraseIdx _ _ (by omega), ← hnp]
  · intro l hl
    unfold copy_nameds at hl
    rcases hn : cs.arg_names with _ | l0
    · rw [hn] at hl
      simp at hl
    · rw [hn] at hl
      simp only [Option.some.injEq] at hl
      rw [← hl, List.length_take, wf_names_len hwf hn]
      omega
  · rw [wf_arg_count hwf]

theorem copy_nameds_len (src : MVMCallsite) (hwf : src.wf = true) :
    ∀ l, copy_nameds src = some l → l.length = src.flag_count - src.num_pos := by
  intro l hl
  unfold copy_nameds at hl
  rcases hn : src.arg_names with _ | l0
  · rw [hn] at hl
    simp at hl
  · rw [hn] at hl
    simp only [Option.some.injEq] at hl
    rw [← hl, List.length_take, wf_names_len hwf hn]
    omega

/-- Everything true of the store and the returned descriptor after the
body of `drop_positional` (build the one-shorter descriptor, intern it). -/
theorem drop_positional_core (s : MVMCallsiteInterns) (cs : MVMCallsite) (idx : Nat)
    (hinv : internInv s = true) (hwf : cs.wf = true) (hidx : idx < cs.num_pos) :
    internInv (MVM_callsite_try_intern s
      (MVMCallsite.mk (dropFlags cs idx) (cs.arg_count - 1) (cs.num_pos - 1)
        (cs.flag_count - 1) false false none (copy_nameds cs))).1 = true ∧
    (derefPtr (MVM_callsite_try_intern s
      (MVMCallsite.mk (dropFlags cs idx) (cs.arg_count - 1) (cs.num_pos - 1)
        (cs.flag_count - 1) false false none (copy_nameds cs))).1
      (MVM_callsite_try_intern s
      (MVMCallsite.mk (dropFlags cs idx) (cs.arg_count - 1) (cs.num_pos - 1)
        (cs.flag_count - 1) false false none (copy_nameds cs))).2).wf = true ∧
    (derefPtr (MVM_callsite_try_intern s
      (MVMCallsite.mk (dropFlags cs idx) (cs.arg_count - 1) (cs.num_pos - 1)
        (cs.flag_count - 1) false false none (copy_nameds cs))).1
      (MVM_callsite_try_intern s
      (MVMCallsite.mk (dropFlags cs idx) (cs.arg_count - 1) (cs.num_pos - 1)
        (cs.flag_count - 1) false false none (copy_nameds cs))).2).has_flattening = false ∧
    (derefPtr (MVM_callsite_try_intern s
      (MVMCallsite.mk (dropFlags cs idx) (cs.arg_count - 1) (cs.num_pos - 1)
        (cs.flag_count - 1) false false none (copy_nameds cs))).1
      (MVM_callsite_try_intern s
      (MVMCallsite.mk (dropFlags cs idx) (cs.arg_count - 1) (cs.num_pos - 1)
        (cs.flag_count - 1) false false none (copy_nameds cs))).2).arg_flags
      = cs.arg_flags.eraseIdx idx ∧
    (derefPtr (MVM_callsite_try_intern s
      (MVMCallsite.mk (dropFlags cs idx) (cs.arg_count - 1) (cs.num_pos - 1)
        (cs.flag_count - 1) false false none (copy_nameds cs))).1
      (MVM_callsite_try_intern s
      (MVMCallsite.mk (dropFlags cs idx) (cs.arg_count - 1) (cs.num_pos - 1)
        (cs.flag_count - 1) false false none (copy_nameds cs))).2).num_pos
      = cs.num_pos - 1 ∧
    (derefPtr (MVM_callsite_try_intern s
      (MVMCallsite.mk (dropFlags cs idx) (cs.arg_count - 1) (cs.num_pos - 1)
        (cs.flag_count - 1) false false none (copy_nameds cs))).1
      (MVM_callsite_try_intern s
      (MVMCallsite.mk (dropFlags cs idx) (cs.arg_count - 1) (cs.num_pos - 1)
        (cs.flag_count - 1) false false none (copy_nameds cs))).2).flag_count
      = cs.flag_count - 1 ∧
    (derefPtr (MVM_callsite_try_intern s
      (MVMCallsite.mk (dropFlags cs idx) (cs.arg_count - 1) (cs.num_pos - 1)
        (cs.flag_count - 1) false false none (copy_nameds cs))).1
      (MVM_callsite_try_intern s
      (MVMCallsite.mk (dropFlags cs idx) (cs.arg_count - 1) (cs.num_pos - 1)
        (cs.flag_count - 1) false false none (copy_nameds cs))).2).arg_count
      = cs.arg_count - 1 ∧
    namesSeq (derefPtr (MVM_callsite_try_intern s
      (MVMCallsite.mk (dropFlags cs idx) (cs.arg_count - 1) (cs.num_pos - 1)
        (cs.flag_count - 1) false false none (copy_nameds cs))).1
      (MVM_callsite_try_intern s
      (MVMCallsite.mk (dropFlags cs idx) (cs.arg_count - 1) (cs.num_pos - 1)
        (cs.flag_count - 1) false false none (copy_nameds cs))).2) = namesSeq cs := by
  have hnp := wf_num_pos hwf
  have hle := wf_num_pos_le hwf
  have hlen := wf_flags_len hwf
  have hwfn := drop_new_wf cs idx hwf hidx
  obtain ⟨hinv1, heq, hdwf, hdfl⟩ := try_intern_spec s
    (MVMCallsite.mk (dropFlags cs idx) (cs.arg_count - 1) (cs.num_pos - 1)
      (cs.flag_count - 1) false false none (copy_nameds cs)) hinv hwfn rfl
  have hkey := (internEqb_iff _ _).mp heq
  have hflags1 := congrArg Prod.fst hkey
  have hnames1 := congrArg Prod.snd hkey
  have hflags : (derefPtr (MVM_callsite_try_intern s
      (MVMCallsite.mk (dropFlags cs idx) (cs.arg_count - 1) (cs.num_pos - 1)
        (cs.flag_count - 1) false false none (copy_nameds cs))).1
      (MVM_callsite_try_intern s
      (MVMCallsite.mk (dropFlags cs idx) (cs.arg_count - 1) (cs.num_pos - 1)
        (cs.flag_count - 1) false false none (copy_nameds cs))).2).arg_flags
      = cs.arg_flags.eraseIdx idx := by
    rw [← dropFlags_eq_eraseIdx cs idx hwf]
    exact hflags1
  have hnames : namesSeq (derefPtr (MVM_callsite_try_intern s
      (MVMCallsite.mk (dropFlags cs idx) (cs.arg_count - 1) (cs.num_pos - 1)
        (cs.flag_count - 1) false false none (copy_nameds cs))).1
      (MVM_callsite_try_intern s
      (MVMCallsite.mk (dropFlags cs idx) (cs.arg_count - 1) (cs.num_pos - 1)
        (cs.flag_count - 1) false false none (copy_nameds cs))).2) = namesSeq cs := by
    rw [← namesSeq_mk_copy_nameds cs (dropFlags cs idx) (cs.arg_count - 1)
      (cs.num_pos - 1) (cs.flag_count - 1) (by omega)]
    exact hnames1
  have hfc : (derefPtr (MVM_callsite_try_intern s
      (MVMCallsite.mk (dropFlags cs idx) (cs.arg_count - 1) (cs.num_pos - 1)
        (cs.flag_count - 1) false false none (copy_nameds cs))).1
      (MVM_callsite_try_intern s
      (MVMCallsite.mk (dropFlags cs idx) (cs.arg_count - 1) (cs.num_pos - 1)
        (cs.flag_count - 1) false false none (copy_nameds cs))).2).flag_count
      = cs.flag_count - 1 := by
    rw [← wf_flags_len hdwf, hflags, List.length_eraseIdx, if_pos (by omega), hlen]
  refine ⟨hinv1, hdwf, hdfl, hflags, ?_, hfc, ?_, hnames⟩
  · rw [wf_num_pos hdwf, hflags,
      numLeadingPositionals_eraseIdx _ _ (by rw [← hnp]; exact hidx), ← hnp]
  · rw [wf_arg_count hdwf, hfc, wf_arg_count hwf]

/-- C8 — `drop_positional` fails `OutOfRange` exactly when `idx ≥ num_pos`,
fails `HasFlattening` exactly when the index is in range and the callsite
has flattening, and otherwise returns a callsite whose flags are the
original flags with position `idx` removed, whose `num_pos`, `flag_count`
and `arg_count` are each one smaller, and whose named-argument sequence is
copied verbatim. -/
theorem MVM_callsite_drop_positional_spec (s : MVMCallsiteInterns) (cs : MVMCallsite)
    (idx : Nat) :
    (MVM_callsite_drop_positional s cs idx = .error .outOfRange ↔ cs.num_pos ≤ idx) ∧
    (MVM_callsite_drop_positional s cs idx = .error .hasFlattening ↔
      (idx < cs.num_pos ∧ cs.has_flattening = true)) ∧
    (internInv s = true → cs.wf = true → idx < cs.num_pos → cs.has_flattening = false →
      ∃ s' p, MVM_callsite_drop_positional s cs idx = Except.ok (s', p) ∧
        (derefPtr s' p).arg_flags = cs.arg_flags.eraseIdx idx ∧
        (derefPtr s' p).num_pos = cs.num_pos - 1 ∧
        (derefPtr s' p).flag_count = cs.flag_count - 1 ∧
        (derefPtr s' p).arg_count = cs.arg_count - 1 ∧
        namesSeq (derefPtr s' p) = namesSeq cs) := by
  refine ⟨⟨?_, ?_⟩, ⟨?_, ?_⟩, ?_⟩
  · intro h
    by_contra hc
    push_neg at hc
    unfold MVM_callsite_drop_positional at h
    rw [if_neg (by omega)] at h
    by_cases hf : cs.has_flattening
    · rw [if_pos hf] at h
      simp at h
    · rw [if_neg hf] at h
      simp at h
  · intro h
    unfold MVM_callsite_drop_positional
    rw [if_pos h]
  · intro h
    unfold MVM_callsite_drop_positional at h
    by_cases ho : cs.num_pos ≤ idx
    · rw [if_pos ho] at h
      simp at h
    · rw [if_neg ho] at h
      by_cases hf : cs.has_flattening
      · exact ⟨by omega, hf⟩
      · rw [if_neg hf] at h
        simp at h
  · rintro ⟨hidx, hf⟩
    unfold MVM_callsite_drop_positional
    rw [if_neg (by omega), if_pos hf]
  · intro hinv hwf hidx hflat
    obtain ⟨hinv1, hdwf, hdfl, hflags, hnp2, hfc2, hac2, hnames⟩ :=
      drop_positional_core s cs idx hinv hwf hidx
    refine ⟨(MVM_callsite_try_intern s
      (MVMCallsite.mk (dropFlags cs idx) (cs.arg_count - 1) (cs.num_pos - 1)
        (cs.flag_count - 1) false false none (copy_nameds cs))).1,
      (MVM_callsite_try_intern s
      (MVMCallsite.mk (dropFlags cs idx) (cs.arg_count - 1) (cs.num_pos - 1)
        (cs.flag_count - 1) false false none (copy_nameds cs))).2,
      ?_, hflags, hnp2, hfc2, hac2, hnames⟩
    unfold MVM_callsite_drop_positional
    rw [if_neg (by omega), if_neg (by simp [hflat])]

/-- C8 witness: dropping positional 1 of an interleaved three-positional
callsite against the empty store. -/
theorem MVM_callsite_drop_positional_spec_witness :
    (internInv ⟨[]⟩ = true ∧ (MVMCallsite.mk [1, 2, 8] 3 3 3 false false none none).wf = true ∧
      1 < (MVMCallsite.mk [1, 2, 8] 3 3 3 false false none none).num_pos ∧
      (MVMCallsite.mk [1, 2, 8] 3 3 3 false false none none).has_flattening = false) ∧
    (∃ s' p, MVM_callsite_drop_positional ⟨[]⟩
        (MVMCallsite.mk [1, 2, 8] 3 3 3 false false none none) 1 = Except.ok (s', p) ∧
      (derefPtr s' p).arg_flags =
        (MVMCallsite.mk [1, 2, 8] 3 3 3 false false none none).arg_flags.eraseIdx 1 ∧
      (derefPtr s' p).num_pos =
        (MVMCallsite.mk [1, 2, 8] 3 3 3 false false none none).num_pos - 1 ∧
      (derefPtr s' p).flag_count =
        (MVMCallsite.mk [1, 2, 8] 3 3 3 false false none none).flag_count - 1 ∧
      (derefPtr s' p).arg_count =
        (MVMCallsite.mk [1, 2, 8] 3 3 3 false false none none).arg_count - 1 ∧
      namesSeq (derefPtr s' p) =
        namesSeq (MVMCallsite.mk [1, 2, 8] 3 3 3 false false none none)) :=
  ⟨⟨by decide, by decide, by decide, rfl⟩,
   (MVM_callsite_drop_positional_spec ⟨[]⟩
     (MVMCallsite.mk [1, 2, 8] 3 3 3 false false none none) 1).2.2
     (by decide) (by decide) (by decide) rfl⟩

/-- The insert stage of derivation soundness: inserting the dropped flag
back at the same index into any descriptor with the dropped shape yields an
interned-equal result to the original. -/
theorem insert_back_core (s1 : MVMCallsiteInterns) (cs d : MVMCallsite) (idx : Nat)
    (hwf : cs.wf = true) (hidx : idx < cs.num_pos)
    (hinv1 : internInv s1 = true) (hdwf : d.wf = true)
    (hdfl : d.has_flattening = false)
    (hflags : d.arg_flags = cs.arg_flags.eraseIdx idx)
    (hnp : d.num_pos = cs.num_pos - 1)
    (hnames : namesSeq d = namesSeq cs) :
    ∃ s2 p2, MVM_callsite_insert_positional s1 d idx (cs.arg_flags.getD idx 0)
        = Except.ok (s2, p2) ∧
      internEqb (derefPtr s2 p2) cs = true := by
  have hlen := wf_flags_len hwf
  have hnp0 := wf_num_pos hwf
  have hle := wf_num_pos_le hwf
  have hidxlen : idx < cs.arg_flags.length := by omega
  have hfl_restore : insertFlags d idx (cs.arg_flags.getD idx 0) = cs.arg_flags := by
    rw [insertFlags_eq_insertIdx d _ _ hdwf, hflags, insertIdx_getD_eraseIdx _ _ hidxlen]
  have hdfc : d.flag_count = cs.flag_count - 1 := by
    rw [← wf_flags_len hdwf, hflags, List.length_eraseIdx, if_pos hidxlen, hlen]
  have hwfn : (MVMCallsite.mk (insertFlags d idx (cs.arg_flags.getD idx 0))
      (d.arg_count + 1) (d.num_pos + 1) (d.flag_count + 1) false false none
      (copy_nameds d)).wf = true := by
    apply mk_wf
    · rw [hfl_restore, hlen, hdfc]
      omega
    · rw [hfl_restore, ← hnp0, hnp]
      omega
    · intro l hl
      have := copy_nameds_len d hdwf l hl
      omega
    · rw [wf_arg_count hdwf]
  obtain ⟨hinv2, heq2, _, _⟩ := try_intern_spec s1
    (MVMCallsite.mk (insertFlags d idx (cs.arg_flags.getD idx 0))
      (d.arg_count + 1) (d.num_pos + 1) (d.flag_count + 1) false false none
      (copy_nameds d)) hinv1 hwfn rfl
  refine ⟨(MVM_callsite_try_intern s1
      (MVMCallsite.mk (insertFlags d idx (cs.arg_flags.getD idx 0))
        (d.arg_count + 1) (d.num_pos + 1) (d.flag_count + 1) false false none
        (copy_nameds d))).1,
    (MVM_callsite_try_intern s1
      (MVMCallsite.mk (insertFlags d idx (cs.arg_flags.getD idx 0))
        (d.arg_count + 1) (d.num_pos + 1) (d.flag_count + 1) false false none
        (copy_nameds d))).2, ?_, ?_⟩
  · unfold MVM_callsite_insert_positional
    rw [if_neg (by omega), if_neg (by simp [hdfl])]
  · have hkey2 := (internEqb_iff _ _).mp heq2
    rw [internEqb_iff, hkey2]
    have hfst : (MVMCallsite.mk (insertFlags d idx (cs.arg_flags.getD idx 0))
        (d.arg_count + 1) (d.num_pos + 1) (d.flag_count + 1) false false none
        (copy_nameds d)).arg_flags = cs.arg_flags := hfl_restore
    have hsnd : namesSeq (MVMCallsite.mk (insertFlags d idx (cs.arg_flags.getD idx 0))
        (d.arg_count + 1) (d.num_pos + 1) (d.flag_count + 1) false false none
        (copy_nameds d)) = namesSeq cs := by
      rw [namesSeq_mk_copy_nameds d _ _ _ _ (by omega)]
      exact hnames
    unfold csKey
    rw [hfst, hsnd]

/-- C9 — Derivation soundness: for a non-flattening well-formed callsite and
a valid positional index, dropping that positional and re-inserting the
original flag at the same index yields a callsite interned-equal to the
original. -/
theorem MVM_callsite_derivation_soundness (s : MVMCallsiteInterns) (cs : MVMCallsite)
    (idx : Nat) (hinv : internInv s = true) (hwf : cs.wf = true)
    (hflat : cs.has_flattening = false) (hidx : idx < cs.num_pos) :
    ∃ s1 p1 s2 p2,
      MVM_callsite_drop_positional s cs idx = Except.ok (s1, p1) ∧
      MVM_callsite_insert_positional s1 (derefPtr s1 p1) idx (cs.arg_flags.getD idx 0)
        = Except.ok (s2, p2) ∧
      internEqb (derefPtr s2 p2) cs = true := by
  obtain ⟨hinv1, hdwf, hdfl, hflags, hnp2, hfc2, hac2, hnames⟩ :=
    drop_positional_core s cs idx hinv hwf hidx
  obtain ⟨s2, p2, hins, heqf⟩ := insert_back_core
    (MVM_callsite_try_intern s
      (MVMCallsite.mk (dropFlags cs idx) (cs.arg_count - 1) (cs.num_pos - 1)
        (cs.flag_count - 1) false false none (copy_nameds cs))).1
    cs
    (derefPtr (MVM_callsite_try_intern s
      (MVMCallsite.mk (dropFlags cs idx) (cs.arg_count - 1) (cs.num_pos - 1)
        (cs.flag_count - 1) false false none (copy_nameds cs))).1
      (MVM_callsite_try_intern s
      (MVMCallsite.mk (dropFlags cs idx) (cs.arg_count - 1) (cs.num_pos - 1)
        (cs.flag_count - 1) false false none (copy_nameds cs))).2)
    idx hwf hidx hinv1 hdwf hdfl hflags hnp2 hnames
  refine ⟨(MVM_callsite_try_intern s
      (MVMCallsite.mk (dropFlags cs idx) (cs.arg_count - 1) (cs.num_pos - 1)
        (cs.flag_count - 1) false false none (copy_nameds cs))).1,
    (MVM_callsite_try_intern s
      (MVMCallsite.mk (dropFlags cs idx) (cs.arg_count - 1) (cs.num_pos - 1)
        (cs.flag_count - 1) false false none (copy_nameds cs))).2,
    s2, p2, ?_, hins, heqf⟩
  unfold MVM_callsite_drop_positional
  rw [if_neg (by omega), if_neg (by simp [hflat])]

/-- C9 witness: drop-then-reinsert of positional 0 of the two-positional
`[OBJ, INT]` callsite against the empty store. -/
theorem MVM_callsite_derivation_soundness_witness :
    (internInv ⟨[]⟩ = true ∧
     (MVMCallsite.mk [1, 2] 2 2 2 false false none none).wf = true ∧
     (MVMCallsite.mk [1, 2] 2 2 2 false false none none).has_flattening = false ∧
     0 < (MVMCallsite.mk [1, 2] 2 2 2 false false none none).num_pos) ∧
    (∃ s1 p1 s2 p2,
      MVM_callsite_drop_positional ⟨[]⟩
        (MVMCallsite.mk [1, 2] 2 2 2 false false none none) 0 = Except.ok (s1, p1) ∧
      MVM_callsite_insert_positional s1 (derefPtr s1 p1) 0
        ((MVMCallsite.mk [1, 2] 2 2 2 false false none none).arg_flags.getD 0 0)
        = Except.ok (s2, p2) ∧
      internEqb (derefPtr s2 p2)
        (MVMCallsite.mk [1, 2] 2 2 2 false false none none) = true) :=
  ⟨⟨by decide, by decide, rfl, by decide⟩,
   MVM_callsite_derivation_soundness ⟨[]⟩
     (MVMCallsite.mk [1, 2] 2 2 2 false false none none) 0
     (by decide) (by decide) rfl (by decide)⟩

/-- C10 — `mark_thread_blocked` CASes `gc_status` from NONE to UNABLE; when
the CAS fails, an observed INTERRUPT takes the interrupted path
(`MVM_gc_enter_from_interupt`), and any other observed status panics. -/
theorem MVM_gc_mark_thread_blocked_spec (st_at_cas st_at_reread : MVMGCStatus) :
    (st_at_cas = .none →
      MVM_gc_mark_thread_blocked st_at_cas st_at_reread = (.unable, .blocked)) ∧
    (st_at_cas ≠ .none → st_at_reread = .interrupt →
      MVM_gc_mark_thread_blocked st_at_cas st_at_reread = (st_at_reread, .enteredGC)) ∧
    (st_at_cas ≠ .none → st_at_reread ≠ .interrupt →
      MVM_gc_mark_thread_blocked st_at_cas st_at_reread = (st_at_reread, .panicked)) := by
  refine ⟨?_, ?_, ?_⟩
  · intro h
    subst h
    rfl
  · intro h1 h2
    subst h2
    unfold MVM_gc_mark_thread_blocked cas32
    rw [if_neg h1]
    simp [h1]
  · intro h1 h2
    unfold MVM_gc_mark_thread_blocked cas32
    rw [if_neg h1]
    simp [h1, h2]

/-- C10 witness: the three paths at concrete status words — a successful CAS
from NONE, a failed CAS observing INTERRUPT, and a failed CAS observing
anything else. -/
theorem MVM_gc_mark_thread_blocked_spec_witness :
    MVM_gc_mark_thread_blocked .none .stolen = (.unable, .blocked) ∧
    MVM_gc_mark_thread_blocked .unable .interrupt = (.interrupt, .enteredGC) ∧
    MVM_gc_mark_thread_blocked .interrupt .stolen = (.stolen, .panicked) :=
  ⟨(MVM_gc_mark_thread_blocked_spec .none .stolen).1 rfl,
   (MVM_gc_mark_thread_blocked_spec .unable .interrupt).2.1 (by decide) rfl,
   (MVM_gc_mark_thread_blocked_spec .interrupt .stolen).2.2 (by decide) (by decide)⟩

/-! ## Lemmas: the hash table -/

theorem insertLoop_duplicate_iff (c : MVMIndexHashTableControl) (idx : Nat) :
    ∀ fuel pos pd, (insertLoop c idx pos pd fuel = .error .duplicate ↔
      tieDupLoop c idx pos pd fuel = true) := by
  intro fuel
  induction fuel with
  | zero =>
    intro pos pd
    simp [insertLoop, tieDupLoop]
  | succ n ih =>
    intro pos pd
    rw [insertLoop, tieDupLoop]
    cases hm : c.metadata.get? pos with
    | none => simp
    | some m =>
      dsimp only
      by_cases h1 : m < pd
      · rw [if_pos h1, if_pos h1]
        by_cases h0 : m = 0
        · rw [if_pos h0]
          simp
        · rw [if_neg h0]
          cases gapFind c.metadata pos c.metadata.length <;> simp
      · rw [if_neg h1, if_neg h1]
        by_cases hdup : m = pd ∧ c.entries.getD pos 0 = idx
        · rw [if_pos hdup, if_pos hdup]
          simp
        · rw [if_neg hdup, if_neg hdup]
          exact ih (pos + 1) (pd + 1)

/-- C3 amended — the insertion aborts as a duplicate iff the probe walk
reaches a slot with a stored probe distance equal to the candidate's *and*
a stored entry index equal to the inserted index; a tie alone merely keeps
probing. -/
theorem hash_insert_internal_duplicate_iff (hf : Nat → Nat)
    (c : MVMIndexHashTableControl) (list : List Nat) (idx : Nat) :
    hash_insert_internal hf c list idx = .error .duplicate ↔
    (c.cur_items < c.max_items ∧ tieDup hf c list idx = true) := by
  unfold hash_insert_internal tieDup
  by_cases hg : c.max_items ≤ c.cur_items
  · rw [if_pos hg]
    constructor
    · intro h
      simp at h
    · intro h
      omega
  · rw [if_neg hg]
    rw [insertLoop_duplicate_iff]
    constructor
    · intro h
      exact ⟨by omega, h⟩
    · intro h
      exact h.2

/-- C3 counterexample — inserting index 1 whose key collides with the
already-stored index 0: the probe walk reaches a tie
(`*metadata == probe_distance`) yet the insertion completes successfully
instead of aborting as a duplicate. -/
theorem hash_insert_tie_not_fatal_counterexample :
    reachesTie exampleHashFn exampleTableTie [5, 5] 1 = true ∧
    hash_insert_internal exampleHashFn exampleTableTie [5, 5] 1
      = Except.ok exampleTableTieAfter := by
  exact ⟨by decide, by rfl⟩

theorem build_size_eq_spec (e m : Nat)
    (hm : e ≠ 0 → (4 * e ≤ 3 * m + 3 ∧ 3 * m ≤ 4 * e)) :
    build_size_base2 e m = spec_initial_size_base2 e := by
  by_cases he : e = 0
  · subst he
    rw [show build_size_base2 0 m = 3 from by
      unfold build_size_base2 INDEX_MIN_SIZE_BASE_2
      rw [if_pos rfl]]
    unfold spec_initial_size_base2
    rw [show (4 * 0 + 2) / 3 = 0 by norm_num, Nat.clog_zero_right]
    omega
  · obtain ⟨h1, h2⟩ := hm he
    have hdm := Nat.div_add_mod (4 * e + 2) 3
    have hmod := Nat.mod_lt (4 * e + 2) (show 0 < 3 by omega)
    have hc1 : 3 * ((4 * e + 2) / 3) ≤ 4 * e + 2 := by omega
    have hc2 : 4 * e ≤ 3 * ((4 * e + 2) / 3) := by omega
    have hbuild : build_size_base2 e m = max 3 (Nat.clog 2 m) := by
      unfold build_size_base2 MVM_round_up_log_base2 INDEX_MIN_SIZE_BASE_2
      rw [if_neg he]
      by_cases hlt : Nat.clog 2 m < 3
      · rw [if_pos hlt]
        omega
      · rw [if_neg hlt]
        omega
    rw [hbuild]
    unfold spec_initial_size_base2
    have hcm : m = (4 * e + 2) / 3 ∨ m + 1 = (4 * e + 2) / 3 := by omega
    rcases hcm with hcm | hcm
    · rw [hcm]
    · by_cases hsmall : Nat.clog 2 ((4 * e + 2) / 3) ≤ 3
      · have hmono : Nat.clog 2 m ≤ Nat.clog 2 ((4 * e + 2) / 3) :=
          Nat.clog_mono_right 2 (by omega)
        omega
      · have hck : 8 < (4 * e + 2) / 3 := by
          by_contra hle
          exact hsmall ((Nat.le_pow_iff_clog_le (by omega)).mp
            (by simpa using Nat.le_of_not_lt hle))
        have heq : Nat.clog 2 m = Nat.clog 2 ((4 * e + 2) / 3) := by
          by_contra hne
          have hlt : Nat.clog 2 m < Nat.clog 2 ((4 * e + 2) / 3) := by
            have := Nat.clog_mono_right 2 (show m ≤ (4 * e + 2) / 3 by omega)
            omega
          have hub : m ≤ 2 ^ Nat.clog 2 m := Nat.le_pow_clog (by omega) m
          have hlb : 2 ^ Nat.clog 2 m < (4 * e + 2) / 3 := by
            by_contra hge
            have hge2 : (4 * e + 2) / 3 ≤ 2 ^ Nat.clog 2 m := Nat.le_of_not_lt hge
            have := (Nat.le_pow_iff_clog_le (show 1 < 2 by omega)).mp hge2
            omega
          have hcpow : (4 * e + 2) / 3 = 2 ^ Nat.clog 2 m + 1 := by omega
          have hmpow : m = 2 ^ Nat.clog 2 m := by omega
          have hj3 : 3 ≤ Nat.clog 2 m := by
            have h8 : (2 : Nat) ^ 3 ≤ 2 ^ Nat.clog 2 m := by omega
            exact (Nat.pow_le_pow_iff_right (show 1 < 2 by omega)).mp h8
          obtain ⟨t, ht⟩ : ∃ t, 2 ^ Nat.clog 2 m = 8 * t :=
            ⟨2 ^ (Nat.clog 2 m - 3), by
              rw [show (8 : Nat) = 2 ^ 3 by rfl, ← pow_add]
              rw [show 3 + (Nat.clog 2 m - 3) = Nat.clog 2 m by omega]⟩
          omega
        rw [heq]

/-- C5 — `build(table, expected_entries)` allocates a table whose
`official_size_log2` is `max(MIN, ceil_log2(expected_entries / LOAD_FACTOR))`
with `MIN = 3` and `LOAD_FACTOR = 0.75`, and sets
`key_right_shift = 64 - official_size_log2`. The window hypothesis on
`min_needed` covers every value the C double computation
`entries * (1.0 / 0.75)` truncated to an integer can produce. -/
theorem MVM_index_hash_build_size_spec (e m : Nat)
    (hm : e ≠ 0 → (4 * e ≤ 3 * m + 3 ∧ 3 * m ≤ 4 * e)) :
    (MVM_index_hash_build e m).official_size_log2 = spec_initial_size_base2 e ∧
    (MVM_index_hash_build e m).key_right_shift
      = 64 - (MVM_index_hash_build e m).official_size_log2 := by
  constructor
  · show build_size_base2 e m = spec_initial_size_base2 e
    exact build_size_eq_spec e m hm
  · rfl

/-- C5 witness: `expected_entries = 5` with the double computation yielding
`min_needed = 6`; the spec's formula gives `ceil_log2(20/3) = 3`. -/
theorem MVM_index_hash_build_size_spec_witness :
    ((5 : Nat) ≠ 0 → (4 * 5 ≤ 3 * 6 + 3 ∧ 3 * 6 ≤ 4 * 5)) ∧
    ((MVM_index_hash_build 5 6).official_size_log2 = spec_initial_size_base2 5 ∧
     (MVM_index_hash_build 5 6).key_right_shift
       = 64 - (MVM_index_hash_build 5 6).official_size_log2) :=
  ⟨fun _ => by omega,
   MVM_index_hash_build_size_spec 5 6 (fun _ => by omega)⟩

theorem getD_of_get?_some {l : List Nat} {i v : Nat} (h : l.get? i = some v) :
    l.getD i 0 = v := by
  induction l generalizing i with
  | nil => simp at h
  | cons x xs ih =>
    cases i with
    | zero =>
      simp only [List.get?] at h
      cases h
      rfl
    | succ n =>
      simp only [List.get?] at h
      simpa using ih h

theorem lt_length_of_get?_some {l : List Nat} {i v : Nat} (h : l.get? i = some v) :
    i < l.length := by
  induction l generalizing i with
  | nil => simp at h
  | cons x xs ih =>
    cases i with
    | zero => simp
    | succ n =>
      simp only [List.get?] at h
      simpa using ih h

theorem get?_eq_some_getD {l : List Nat} {i : Nat} (h : i < l.length) :
    l.get? i = some (l.getD i 0) := by
  induction l generalizing i with
  | nil => simp at h
  | cons x xs ih =>
    cases i with
    | zero => rfl
    | succ n =>
      simp only [List.get?, List.getD_cons_succ]
      exact ih (by simpa using h)

theorem gapFind_spec (md : List Nat) :
    ∀ fuel pos z, gapFind md pos fuel = some z →
      pos < z ∧ z < md.length ∧ md.getD z 0 = 0 ∧
      ∀ j, pos < j → j < z → md.getD j 0 ≠ 0 := by
  intro fuel
  induction fuel with
  | zero =>
    intro pos z h
    simp [gapFind] at h
  | succ n ih =>
    intro pos z h
    rw [gapFind] at h
    cases hm : md.get? (pos + 1) with
    | none => rw [hm] at h; simp at h
    | some v =>
      rw [hm] at h
      cases v with
      | zero =>
        simp only [Option.some.injEq] at h
        subst h
        refine ⟨by omega, lt_length_of_get?_some hm, getD_of_get?_some hm, ?_⟩
        intro j hj1 hj2
        omega
      | succ k =>
        obtain ⟨h1, h2, h3, h4⟩ := ih (pos + 1) z h
        refine ⟨by omega, h2, h3, ?_⟩
        intro j hj1 hj2
        by_cases hj : j = pos + 1
        · subst hj
          rw [getD_of_get?_some hm]
          omega
        · exact h4 j (by omega) hj2

theorem gapFind_finds (md : List Nat) :
    ∀ fuel pos q, pos < q → q < md.length → md.getD q 0 = 0 → q - pos ≤ fuel →
      ∃ z, gapFind md pos fuel = some z ∧ z ≤ q := by
  intro fuel
  induction fuel with
  | zero =>
    intro pos q h1 h2 h3 h4
    omega
  | succ n ih =>
    intro pos q h1 h2 h3 h4
    rw [gapFind]
    rw [get?_eq_some_getD (show pos + 1 < md.length by omega)]
    cases hv : md.getD (pos + 1) 0 with
    | zero => exact ⟨pos + 1, rfl, by omega⟩
    | succ k =>
      have hne : pos + 1 ≠ q := by
        intro he
        rw [he, h3] at hv
        simp at hv
      obtain ⟨z, hz, hzq⟩ := ih (pos + 1) q (by omega) h2 h3 (by omega)
      exact ⟨z, hz, hzq⟩

theorem getD_take {α : Type} (l : List α) (n i : Nat) (d : α) (h : i < n) :
    (l.take n).getD i d = l.getD i d := by
  induction l generalizing n i with
  | nil => simp
  | cons x xs ih =>
    cases n with
    | zero => omega
    | succ m =>
      cases i with
      | zero => rfl
      | succ j =>
        simp only [List.take, List.getD_cons_succ]
        exact ih m j (by omega)

theorem getD_drop {α : Type} (l : List α) (n i : Nat) (d : α) :
    (l.drop n).getD i d = l.getD (n + i) d := by
  induction l generalizing n with
  | nil => simp
  | cons x xs ih =>
    cases n with
    | zero => simp
    | succ m =>
      simp only [List.drop]
      rw [ih m]
      rw [show m + 1 + i = (m + i) + 1 by omega, List.getD_cons_succ]

theorem getD_map_add_one (l : List Nat) (i : Nat) (h : i < l.length) :
    (l.map (· + 1)).getD i 0 = l.getD i 0 + 1 := by
  induction l generalizing i with
  | nil => simp at h
  | cons x xs ih =>
    cases i with
    | zero => rfl
    | succ j =>
      simp only [List.map, List.getD_cons_succ]
      exact ih j (by simpa using h)

theorem getD_append_split {α : Type} (A B : List α) (i : Nat) (d : α) :
    (A ++ B).getD i d = if i < A.length then A.getD i d else B.getD (i - A.length) d := by
  by_cases h : i < A.length
  · rw [if_pos h]
    exact getD_append_left A B i d h
  · rw [if_neg h]
    induction A generalizing i with
    | nil => simp
    | cons x xs ih =>
      cases i with
      | zero => simp at h
      | succ j =>
        simp only [List.cons_append, List.getD_cons_succ, List.length_cons]
        rw [ih j (by simpa using h)]
        congr 1
        omega

theorem contentsList_append (A B A' B' : List Nat) (h : A.length = A'.length) :
    contentsList (A ++ B) (A' ++ B') = contentsList A A' ++ contentsList B B' := by
  unfold contentsList
  rw [List.zip_append h, List.filter_append, List.map_append]

theorem contentsList_all_nonzero (A A' : List Nat) (h : A.length = A'.length)
    (hnz : ∀ i, i < A.length → A.getD i 0 ≠ 0) :
    contentsList A A' = A' := by
  induction A generalizing A' with
  | nil =>
    cases A' with
    | nil => rfl
    | cons y ys => simp at h
  | cons x xs ih =>
    cases A' with
    | nil => simp at h
    | cons y ys =>
      have hx : x ≠ 0 := by
        have := hnz 0 (by simp)
        simpa using this
      rw [show (x :: xs) = [x] ++ xs from rfl, show (y :: ys) = [y] ++ ys from rfl,
        contentsList_append [x] xs [y] ys (by simp)]
      rw [ih ys (by simpa using h) (fun i hi => by
        have := hnz (i + 1) (by simpa using Nat.succ_lt_succ hi)
        simpa using this)]
      rw [show contentsList [x] [y] = [y] from by
        unfold contentsList
        rw [show ([x].zip [y]) = [(x, y)] from rfl, List.filter_cons]
        rw [if_pos (by simpa using hx)]
        rfl]

theorem contentsList_cons_zero (B B' : List Nat) (w : Nat) :
    contentsList (0 :: B) (w :: B') = contentsList B B' := by
  unfold contentsList
  simp

theorem contentsList_cons_nonzero (B B' : List Nat) (v w : Nat) (hv : v ≠ 0) :
    contentsList (v :: B) (w :: B') = w :: contentsList B B' := by
  unfold contentsList
  rw [List.zip_cons_cons, List.filter_cons]
  rw [if_pos (by simpa using hv)]
  rfl

theorem contentsList_replicate_zero (n : Nat) :
    contentsList (List.replicate n 0 ++ [1]) (List.replicate n 0) = [] := by
  induction n with
  | zero => rfl
  | succ m ih =>
    rw [List.replicate_succ]
    rw [List.cons_append, contentsList_cons_zero]
    exact ih

theorem makeRoom_fields (c : MVMIndexHashTableControl) (idx pos pd z : Nat) :
    (makeRoom c idx pos pd z).official_size_log2 = c.official_size_log2 ∧
    (makeRoom c idx pos pd z).key_right_shift = c.key_right_shift ∧
    (makeRoom c idx pos pd z).max_probe_distance = c.max_probe_distance ∧
    (makeRoom c idx pos pd z).max_probe_distance_limit = c.max_probe_distance_limit ∧
    (makeRoom c idx pos pd z).cur_items = c.cur_items + 1 ∧
    ((makeRoom c idx pos pd z).max_items = c.max_items ∨
      (makeRoom c idx pos pd z).max_items = 0) := by
  refine ⟨rfl, rfl, rfl, rfl, rfl, ?_⟩
  unfold makeRoom
  by_cases h : (((c.metadata.drop pos).take (z - pos)).any
      (fun v => v + 1 == c.max_probe_distance) || (pd == c.max_probe_distance)) = true
  · right
    simp only [h]
    rfl
  · left
    simp only [Bool.not_eq_true] at h
    simp only [h]
    rfl

theorem makeRoom_md_length (c : MVMIndexHashTableControl) (idx pos pd z : Nat)
    (hpos : pos < z) (hz : z < c.metadata.length) :
    (makeRoom c idx pos pd z).metadata.length = c.metadata.length := by
  unfold makeRoom
  simp only [List.length_append, List.length_take, List.length_map, List.length_drop,
    List.length_cons, List.length_nil]
  omega

theorem makeRoom_en_length (c : MVMIndexHashTableControl) (idx pos pd z : Nat)
    (hpos : pos < z) (hz : z < c.entries.length) :
    (makeRoom c idx pos pd z).entries.length = c.entries.length := by
  unfold makeRoom
  simp only [List.length_append, List.length_take, List.length_drop,
    List.length_cons, List.length_nil]
  omega

theorem makeRoom_md_getD (c : MVMIndexHashTableControl) (idx pos pd z : Nat)
    (hpos : pos < z) (hz : z < c.metadata.length) (i : Nat) :
    (makeRoom c idx pos pd z).metadata.getD i 0 =
      if i < pos then c.metadata.getD i 0
      else if i = pos then pd
      else if i ≤ z then c.metadata.getD (i - 1) 0 + 1
      else c.metadata.getD i 0 := by
  unfold makeRoom
  have hsegl : ((c.metadata.drop pos).take (z - pos)).length = z - pos := by
    simp only [List.length_take, List.length_drop]
    omega
  have htl : (c.metadata.take pos).length = pos := by
    simp only [List.length_take]
    omega
  have hL2 : (c.metadata.take pos ++ [pd]).length = pos + 1 := by
    simp only [List.length_append, htl, List.length_cons, List.length_nil]
  have hL3 : (c.metadata.take pos ++ [pd]
      ++ ((c.metadata.drop pos).take (z - pos)).map (· + 1)).length = z + 1 := by
    simp only [List.length_append, htl, List.length_cons, List.length_nil,
      List.length_map, hsegl]
    omega
  by_cases h1 : i < pos
  · rw [getD_append_split, hL3, if_pos (by omega)]
    rw [getD_append_split, hL2, if_pos (by omega)]
    rw [getD_append_split, htl, if_pos h1]
    rw [getD_take _ _ _ _ h1, if_pos h1]
  · by_cases h2 : i = pos
    · subst h2
      rw [getD_append_split, hL3, if_pos (by omega)]
      rw [getD_append_split, hL2, if_pos (by omega)]
      rw [getD_append_split, htl, if_neg (by omega)]
      rw [if_neg h1, if_pos rfl, Nat.sub_self]
      rfl
    · by_cases h3 : i ≤ z
      · rw [getD_append_split, hL3, if_pos (by omega)]
        rw [getD_append_split, hL2, if_neg (by omega)]
        rw [getD_map_add_one _ _ (by rw [hsegl]; omega)]
        rw [getD_take _ _ _ _ (by omega), getD_drop]
        rw [if_neg h1, if_neg h2, if_pos h3]
        congr 2
        omega
      · rw [getD_append_split, hL3, if_neg (by omega)]
        rw [getD_drop]
        rw [if_neg h1, if_neg h2, if_neg h3]
        congr 1
        omega

theorem makeRoom_en_getD (c : MVMIndexHashTableControl) (idx pos pd z : Nat)
    (hpos : pos < z) (hz : z < c.entries.length) (i : Nat) :
    (makeRoom c idx pos pd z).entries.getD i 0 =
      if i < pos then c.entries.getD i 0
      else if i = pos then idx
      else if i ≤ z then c.entries.getD (i - 1) 0
      else c.entries.getD i 0 := by
  unfold makeRoom
  have hsegl : ((c.entries.drop pos).take (z - pos)).length = z - pos := by
    simp only [List.length_take, List.length_drop]
    omega
  have htl : (c.entries.take pos).length = pos := by
    simp only [List.length_take]
    omega
  have hL2 : (c.entries.take pos ++ [idx]).length = pos + 1 := by
    simp only [List.length_append, htl, List.length_cons, List.length_nil]
  have hL3 : (c.entries.take pos ++ [idx]
      ++ (c.entries.drop pos).take (z - pos)).length = z + 1 := by
    simp only [List.length_append, htl, List.length_cons, List.length_nil, hsegl]
    omega
  by_cases h1 : i < pos
  · rw [getD_append_split, hL3, if_pos (by omega)]
    rw [getD_append_split, hL2, if_pos (by omega)]
    rw [getD_append_split, htl, if_pos h1]
    rw [getD_take _ _ _ _ h1, if_pos h1]
  · by_cases h2 : i = pos
    · subst h2
      rw [getD_append_split, hL3, if_pos (by omega)]
      rw [getD_append_split, hL2, if_pos (by omega)]
      rw [getD_append_split, htl, if_neg (by omega)]
      rw [if_neg h1, if_pos rfl, Nat.sub_self]
      rfl
    · by_cases h3 : i ≤ z
      · rw [getD_append_split, hL3, if_pos (by omega)]
        rw [getD_append_split, hL2, if_neg (by omega)]
        rw [getD_take _ _ _ _ (by omega), getD_drop]
        rw [if_neg h1, if_neg h2, if_pos h3]
        congr 1
        omega
      · rw [getD_append_split, hL3, if_neg (by omega)]
        rw [getD_drop]
        rw [if_neg h1, if_neg h2, if_neg h3]
        congr 1
        omega

theorem makeRoom_contents (c : MVMIndexHashTableControl) (idx pos pd z : Nat)
    (hpd : 1 ≤ pd) (hpos : pos < z) (hz : z < c.entries.length)
    (hlen : c.entries.length + 1 = c.metadata.length)
    (hmz : c.metadata.getD z 0 = 0)
    (hseg : ∀ j, pos ≤ j → j < z → c.metadata.getD j 0 ≠ 0) :
    contents (makeRoom c idx pos pd z) = idx ::ₘ contents c := by
  have hzmd : z < c.metadata.length := by omega
  have hposmd : pos < c.metadata.length := by omega
  have hposen : pos < c.entries.length := by omega
  have htlm : (c.metadata.take pos).length = pos := by
    simp only [List.length_take]
    omega
  have htle : (c.entries.take pos).length = pos := by
    simp only [List.length_take]
    omega
  have hsegm : ((c.metadata.drop pos).take (z - pos)).length = z - pos := by
    simp only [List.length_take, List.length_drop]
    omega
  have hsege : ((c.entries.drop pos).take (z - pos)).length = z - pos := by
    simp only [List.length_take, List.length_drop]
    omega
  have hsegnz : ∀ i, i < ((c.metadata.drop pos).take (z - pos)).length →
      ((c.metadata.drop pos).take (z - pos)).getD i 0 ≠ 0 := by
    intro i hi
    rw [hsegm] at hi
    rw [getD_take _ _ _ _ hi, getD_drop]
    exact hseg (pos + i) (by omega) (by omega)
  have hsegKeep : contentsList ((c.metadata.drop pos).take (z - pos))
      ((c.entries.drop pos).take (z - pos)) = (c.entries.drop pos).take (z - pos) :=
    contentsList_all_nonzero _ _ (by rw [hsegm, hsege]) hsegnz
  have hsegKeep2 : contentsList (((c.metadata.drop pos).take (z - pos)).map (· + 1))
      ((c.entries.drop pos).take (z - pos)) = (c.entries.drop pos).take (z - pos) :=
    contentsList_all_nonzero _ _ (by rw [List.length_map, hsegm, hsege]) (by
      intro i hi
      rw [List.length_map, hsegm] at hi
      rw [getD_map_add_one _ _ (by rw [hsegm]; exact hi)]
      omega)
  have hmddecomp : c.metadata = c.metadata.take pos
      ++ (c.metadata.drop pos).take (z - pos)
      ++ (0 :: c.metadata.drop (z + 1)) := by
    have h1 : c.metadata.take z = c.metadata.take pos
        ++ (c.metadata.drop pos).take (z - pos) := by
      rw [show z = pos + (z - pos) by omega, List.take_add]
      rw [show pos + (z - pos) - pos = z - pos by omega]
    have h2 : c.metadata.drop z = 0 :: c.metadata.drop (z + 1) := by
      rw [List.drop_eq_getElem_cons hzmd]
      rw [← List.getD_eq_getElem c.metadata 0 hzmd, hmz]
    rw [← h2, ← h1, List.take_append_drop]
  have hendecomp : c.entries = c.entries.take pos
      ++ (c.entries.drop pos).take (z - pos)
      ++ (c.entries.getD z 0 :: c.entries.drop (z + 1)) := by
    have h1 : c.entries.take z = c.entries.take pos
        ++ (c.entries.drop pos).take (z - pos) := by
      rw [show z = pos + (z - pos) by omega, List.take_add]
      rw [show pos + (z - pos) - pos = z - pos by omega]
    have h2 : c.entries.drop z = c.entries.getD z 0 :: c.entries.drop (z + 1) := by
      rw [List.drop_eq_getElem_cons hz]
      rw [← List.getD_eq_getElem c.entries 0 hz]
    rw [← h2, ← h1, List.take_append_drop]
  have hold : contentsList c.metadata c.entries
      = contentsList (c.metadata.take pos) (c.entries.take pos)
      ++ ((c.entries.drop pos).take (z - pos)
      ++ contentsList (c.metadata.drop (z + 1)) (c.entries.drop (z + 1))) := by
    conv_lhs => rw [hmddecomp, hendecomp]
    rw [contentsList_append _ _ _ _ (by
      simp only [List.length_append, List.length_take, List.length_drop]
      omega)]
    rw [contentsList_append _ _ _ _ (by rw [htlm, htle])]
    rw [hsegKeep]
    rw [show contentsList (0 :: c.metadata.drop (z + 1))
        (c.entries.getD z 0 :: c.entries.drop (z + 1))
        = contentsList (c.metadata.drop (z + 1)) (c.entries.drop (z + 1)) from
      contentsList_cons_zero _ _ _]
    rw [List.append_assoc]
  have hnew : contentsList (makeRoom c idx pos pd z).metadata
      (makeRoom c idx pos pd z).entries
      = contentsList (c.metadata.take pos) (c.entries.take pos)
      ++ (idx :: ((c.entries.drop pos).take (z - pos)
      ++ contentsList (c.metadata.drop (z + 1)) (c.entries.drop (z + 1)))) := by
    show contentsList
      (c.metadata.take pos ++ [pd] ++ ((c.metadata.drop pos).take (z - pos)).map (· + 1)
        ++ c.metadata.drop (z + 1))
      (c.entries.take pos ++ [idx] ++ (c.entries.drop pos).take (z - pos)
        ++ c.entries.drop (z + 1)) = _
    rw [contentsList_append _ _ _ _ (by
      simp only [List.length_append, List.length_take, List.length_drop,
        List.length_map, List.length_cons, List.length_nil]
      omega)]
    rw [contentsList_append _ _ _ _ (by
      simp only [List.length_append, List.length_take, List.length_cons,
        List.length_nil]
      omega)]
    rw [contentsList_append _ _ _ _ (by rw [htlm, htle])]
    rw [show contentsList [pd] [idx] = [idx] from
      contentsList_cons_nonzero [] [] pd idx (by omega)]
    rw [hsegKeep2]
    rw [List.append_assoc, List.append_assoc]
    rfl
  unfold contents
  rw [hold, hnew]
  rw [← Multiset.coe_add, ← Multiset.coe_add]
  rw [show ((idx :: ((c.entries.drop pos).take (z - pos)
      ++ contentsList (c.metadata.drop (z + 1)) (c.entries.drop (z + 1)))) : Multiset Nat)
      = idx ::ₘ ↑((c.entries.drop pos).take (z - pos)
      ++ contentsList (c.metadata.drop (z + 1)) (c.entries.drop (z + 1))) from rfl]
  rw [Multiset.add_cons]

theorem writeEmpty_fields (c : MVMIndexHashTableControl) (idx pos pd : Nat) :
    (writeEmpty c idx pos pd).official_size_log2 = c.official_size_log2 ∧
    (writeEmpty c idx pos pd).key_right_shift = c.key_right_shift ∧
    (writeEmpty c idx pos pd).max_probe_distance = c.max_probe_distance ∧
    (writeEmpty c idx pos pd).max_probe_distance_limit = c.max_probe_distance_limit ∧
    (writeEmpty c idx pos pd).cur_items = c.cur_items + 1 ∧
    ((writeEmpty c idx pos pd).max_items = c.max_items ∨
      (writeEmpty c idx pos pd).max_items = 0) := by
  refine ⟨rfl, rfl, rfl, rfl, rfl, ?_⟩
  unfold writeEmpty
  by_cases h : (pd == c.max_probe_distance) = true
  · right
    simp only [h]
    rfl
  · left
    simp only [Bool.not_eq_true] at h
    simp only [h]
    rfl

theorem writeEmpty_contents (c : MVMIndexHashTableControl) (idx pos pd : Nat)
    (hpd : 1 ≤ pd) (hposmd : pos < c.metadata.length) (hposen : pos < c.entries.length)
    (hmp : c.metadata.getD pos 0 = 0) :
    contents (writeEmpty c idx pos pd) = idx ::ₘ contents c := by
  have htlm : (c.metadata.take pos).length = pos := by
    simp only [List.length_take]
    omega
  have htle : (c.entries.take pos).length = pos := by
    simp only [List.length_take]
    omega
  have hmddecomp : c.metadata = c.metadata.take pos ++ (0 :: c.metadata.drop (pos + 1)) := by
    have h2 : c.metadata.drop pos = 0 :: c.metadata.drop (pos + 1) := by
      rw [List.drop_eq_getElem_cons hposmd]
      rw [← List.getD_eq_getElem c.metadata 0 hposmd, hmp]
    rw [← h2, List.take_append_drop]
  have hendecomp : c.entries = c.entries.take pos
      ++ (c.entries.getD pos 0 :: c.entries.drop (pos + 1)) := by
    have h2 : c.entries.drop pos = c.entries.getD pos 0 :: c.entries.drop (pos + 1) := by
      rw [List.drop_eq_getElem_cons hposen]
      rw [← List.getD_eq_getElem c.entries 0 hposen]
    rw [← h2, List.take_append_drop]
  have hold : contentsList c.metadata c.entries
      = contentsList (c.metadata.take pos) (c.entries.take pos)
      ++ contentsList (c.metadata.drop (pos + 1)) (c.entries.drop (pos + 1)) := by
    conv_lhs => rw [hmddecomp, hendecomp]
    rw [contentsList_append _ _ _ _ (by rw [htlm, htle])]
    rw [show contentsList (0 :: c.metadata.drop (pos + 1))
        (c.entries.getD pos 0 :: c.entries.drop (pos + 1))
        = contentsList (c.metadata.drop (pos + 1)) (c.entries.drop (pos + 1)) from
      contentsList_cons_zero _ _ _]
  have hnew : contentsList (writeEmpty c idx pos pd).metadata
      (writeEmpty c idx pos pd).entries
      = contentsList (c.metadata.take pos) (c.entries.take pos)
      ++ (idx :: contentsList (c.metadata.drop (pos + 1)) (c.entries.drop (pos + 1))) := by
    show contentsList (c.metadata.set pos pd) (c.entries.set pos idx) = _
    rw [List.set_eq_take_cons_drop pd hposmd, List.set_eq_take_cons_drop idx hposen]
    rw [contentsList_append _ _ _ _ (by rw [htlm, htle])]
    rw [show contentsList (pd :: c.metadata.drop (pos + 1))
        (idx :: c.entries.drop (pos + 1))
        = idx :: contentsList (c.metadata.drop (pos + 1)) (c.entries.drop (pos + 1)) from
      contentsList_cons_nonzero _ _ _ _ (by omega)]
  unfold contents
  rw [hold, hnew]
  rw [← Multiset.coe_add, ← Multiset.coe_add]
  rw [show ((idx :: contentsList (c.metadata.drop (pos + 1))
      (c.entries.drop (pos + 1))) : Multiset Nat)
      = idx ::ₘ ↑(contentsList (c.metadata.drop (pos + 1)) (c.entries.drop (pos + 1)))
      from rfl]
  rw [Multiset.add_cons]

theorem writeEmpty_spec (c : MVMIndexHashTableControl) (idx pos pd : Nat)
    (hmd : c.metadata.getD pos 0 = 0) (hposmd : pos < c.metadata.length)
    (hlen : c.entries.length + 1 = c.metadata.length)
    (hsent : c.metadata.getD (c.metadata.length - 1) 0 = 1)
    (hrel1 : pd ≤ pos + 1) (hrel2 : pos + 1 - pd < 2 ^ c.official_size_log2)
    (hpd1 : 1 ≤ pd) (hpdb : pd ≤ c.max_probe_distance)
    (hslots : ∀ i, i < c.metadata.length - 1 → c.metadata.getD i 0 = 0 ∨
      (c.metadata.getD i 0 ≤ i + 1 ∧
       i + 1 - c.metadata.getD i 0 < 2 ^ c.official_size_log2 ∧
       c.metadata.getD i 0 < c.max_probe_distance)) :
    InsertOutcome c (writeEmpty c idx pos pd) idx := by
  have hposlast : pos ≠ c.metadata.length - 1 := by
    intro h
    rw [h, hsent] at hmd
    simp at hmd
  have hposen : pos < c.entries.length := by omega
  obtain ⟨hf1, hf2, hf3, hf4, hf5, hf6⟩ := writeEmpty_fields c idx pos pd
  have hmdlen : (writeEmpty c idx pos pd).metadata.length = c.metadata.length := by
    show (c.metadata.set pos pd).length = c.metadata.length
    simp
  have henlen : (writeEmpty c idx pos pd).entries.length = c.entries.length := by
    show (c.entries.set pos idx).length = c.entries.length
    simp
  have hgd : ∀ i, (writeEmpty c idx pos pd).metadata.getD i 0 =
      if i = pos then pd else c.metadata.getD i 0 := by
    intro i
    show (c.metadata.set pos pd).getD i 0 = _
    by_cases h : i = pos
    · subst h
      rw [if_pos rfl]
      exact getD_set_self _ _ _ _ hposmd
    · rw [if_neg h]
      exact getD_set_ne _ _ _ _ _ (fun he => h he.symm)
  refine ⟨hmdlen, henlen, hf1, hf2, hf3, hf4, hf6, hf5,
    writeEmpty_contents c idx pos pd hpd1 hposmd hposen hmd, ?_, ?_⟩
  · rw [hmdlen, hgd, if_neg (fun he => hposlast he.symm)]
    exact hsent
  · intro i hi
    rw [hmdlen] at hi
    rw [hgd]
    by_cases h : i = pos
    · subst h
      rw [if_pos rfl]
      right
      refine ⟨hrel1, hrel2, ?_⟩
      by_cases hmax : pd = c.max_probe_distance
      · left
        unfold writeEmpty
        simp only [hmax, beq_self_eq_true]
        rfl
      · right
        omega
    · rw [if_neg h]
      rcases hslots i hi with h0 | ⟨ha, hb, hc⟩
      · left
        exact h0
      · right
        exact ⟨ha, hb, Or.inr hc⟩

theorem makeRoom_max_zero_pd (c : MVMIndexHashTableControl) (idx pos pd z : Nat)
    (h : pd = c.max_probe_distance) : (makeRoom c idx pos pd z).max_items = 0 := by
  unfold makeRoom
  simp only [h, beq_self_eq_true, Bool.or_true]
  rfl

theorem makeRoom_max_zero_seg (c : MVMIndexHashTableControl) (idx pos pd z v : Nat)
    (hv : v ∈ (c.metadata.drop pos).take (z - pos)) (h : v + 1 = c.max_probe_distance) :
    (makeRoom c idx pos pd z).max_items = 0 := by
  unfold makeRoom
  have hany : ((c.metadata.drop pos).take (z - pos)).any
      (fun w => w + 1 == c.max_probe_distance) = true := by
    rw [List.any_eq_true]
    exact ⟨v, hv, by simp [h]⟩
  simp only [hany, Bool.true_or]
  rfl

theorem makeRoom_spec (c : MVMIndexHashTableControl) (idx pos pd z : Nat)
    (hposmd : pos < c.metadata.length)
    (hmne : c.metadata.getD pos 0 ≠ 0)
    (hgap : gapFind c.metadata pos c.metadata.length = some z)
    (hlen : c.entries.length + 1 = c.metadata.length)
    (hsent : c.metadata.getD (c.metadata.length - 1) 0 = 1)
    (hrel1 : pd ≤ pos + 1) (hrel2 : pos + 1 - pd < 2 ^ c.official_size_log2)
    (hpd1 : 1 ≤ pd) (hpdb : pd ≤ c.max_probe_distance)
    (hslots : ∀ i, i < c.metadata.length - 1 → c.metadata.getD i 0 = 0 ∨
      (c.metadata.getD i 0 ≤ i + 1 ∧
       i + 1 - c.metadata.getD i 0 < 2 ^ c.official_size_log2 ∧
       c.metadata.getD i 0 < c.max_probe_distance)) :
    InsertOutcome c (makeRoom c idx pos pd z) idx := by
  obtain ⟨hpz, hzmd, hmz, hmid⟩ := gapFind_spec c.metadata c.metadata.length pos z hgap
  have hzlast : z ≠ c.metadata.length - 1 := by
    intro h
    rw [h, hsent] at hmz
    simp at hmz
  have hzen : z < c.entries.length := by omega
  have hseg : ∀ j, pos ≤ j → j < z → c.metadata.getD j 0 ≠ 0 := by
    intro j hj1 hj2
    by_cases hj : j = pos
    · subst hj
      exact hmne
    · exact hmid j (by omega) hj2
  obtain ⟨hf1, hf2, hf3, hf4, hf5, hf6⟩ := makeRoom_fields c idx pos pd z
  have hmdlen := makeRoom_md_length c idx pos pd z hpz hzmd
  have henlen := makeRoom_en_length c idx pos pd z hpz hzen
  refine ⟨hmdlen, henlen, hf1, hf2, hf3, hf4, hf6, hf5,
    makeRoom_contents c idx pos pd z hpd1 hpz hzen hlen hmz hseg, ?_, ?_⟩
  · rw [hmdlen, makeRoom_md_getD c idx pos pd z hpz hzmd]
    rw [if_neg (by omega), if_neg (by omega), if_neg (by omega)]
    exact hsent
  · intro i hi
    rw [hmdlen] at hi
    rw [makeRoom_md_getD c idx pos pd z hpz hzmd]
    by_cases h1 : i < pos
    · rw [if_pos h1]
      rcases hslots i hi with h0 | ⟨ha, hb, hc⟩
      · left
        exact h0
      · right
        exact ⟨ha, hb, Or.inr hc⟩
    · by_cases h2 : i = pos
      · rw [if_neg h1, if_pos h2]
        right
        refine ⟨by omega, by omega, ?_⟩
        by_cases hmax : pd = c.max_probe_distance
        · exact Or.inl (makeRoom_max_zero_pd c idx pos pd z hmax)
        · exact Or.inr (by omega)
      · by_cases h3 : i ≤ z
        · rw [if_neg h1, if_neg h2, if_pos h3]
          right
          have hio : i - 1 < c.metadata.length - 1 := by omega
          have hocc : c.metadata.getD (i - 1) 0 ≠ 0 := hseg (i - 1) (by omega) (by omega)
          rcases hslots (i - 1) hio with h0 | ⟨ha, hb, hc⟩
          · exact absurd h0 hocc
          · refine ⟨by omega, by omega, ?_⟩
            by_cases hmax : c.metadata.getD (i - 1) 0 + 1 = c.max_probe_distance
            · left
              refine makeRoom_max_zero_seg c idx pos pd z (c.metadata.getD (i - 1) 0)
                ?_ hmax
              have hlt : i - 1 - pos < ((c.metadata.drop pos).take (z - pos)).length := by
                simp only [List.length_take, List.length_drop]
                omega
              have hvv : ((c.metadata.drop pos).take (z - pos)).getD (i - 1 - pos) 0
                  = c.metadata.getD (i - 1) 0 := by
                rw [getD_take _ _ _ _ (by omega), getD_drop]
                congr 1
                omega
              rw [← hvv]
              exact getD_mem_of_lt _ _ _ hlt
            · right
              omega
        · rw [if_neg h1, if_neg h2, if_neg h3]
          rcases hslots i hi with h0 | ⟨ha, hb, hc⟩
          · left
            exact h0
          · right
            exact ⟨ha, hb, Or.inr hc⟩

theorem hashInv_unpack (c : MVMIndexHashTableControl) (h : hashInv c = true) :
    3 ≤ c.official_size_log2 ∧
    c.key_right_shift = 64 - c.official_size_log2 ∧
    c.max_probe_distance = c.max_probe_distance_limit ∧
    2 ≤ c.max_probe_distance ∧
    c.metadata.length = 2 ^ c.official_size_log2 + c.max_probe_distance_limit + 1 ∧
    c.entries.length + 1 = c.metadata.length ∧
    c.metadata.getD (c.metadata.length - 1) 0 = 1 ∧
    (∀ i, i < c.metadata.length - 1 →
      c.metadata.getD i 0 = 0 ∨
      (c.metadata.getD i 0 ≤ i + 1 ∧
       i + 1 - c.metadata.getD i 0 < 2 ^ c.official_size_log2 ∧
       (c.max_items = 0 ∨ c.metadata.getD i 0 < c.max_probe_distance))) := by
  unfold hashInv at h
  simp only [Bool.and_eq_true, beq_iff_eq, decide_eq_true_eq, List.all_eq_true,
    List.mem_range] at h
  obtain ⟨⟨⟨⟨⟨⟨⟨h1, h2⟩, h3⟩, h4⟩, h5⟩, h6⟩, h7⟩, h8⟩ := h
  refine ⟨h1, h2, h3, h4, h5, h6, h7, ?_⟩
  intro i hi
  have hs := h8 i hi
  unfold slotOK at hs
  simp only [Bool.or_eq_true, Bool.and_eq_true, beq_iff_eq, decide_eq_true_eq] at hs
  tauto

theorem hashInv_pack (c : MVMIndexHashTableControl)
    (h1 : 3 ≤ c.official_size_log2)
    (h2 : c.key_right_shift = 64 - c.official_size_log2)
    (h3 : c.max_probe_distance = c.max_probe_distance_limit)
    (h4 : 2 ≤ c.max_probe_distance)
    (h5 : c.metadata.length = 2 ^ c.official_size_log2 + c.max_probe_distance_limit + 1)
    (h6 : c.entries.length + 1 = c.metadata.length)
    (h7 : c.metadata.getD (c.metadata.length - 1) 0 = 1)
    (h8 : ∀ i, i < c.metadata.length - 1 →
      c.metadata.getD i 0 = 0 ∨
      (c.metadata.getD i 0 ≤ i + 1 ∧
       i + 1 - c.metadata.getD i 0 < 2 ^ c.official_size_log2 ∧
       (c.max_items = 0 ∨ c.metadata.getD i 0 < c.max_probe_distance))) :
    hashInv c = true := by
  unfold hashInv
  simp only [Bool.and_eq_true, beq_iff_eq, decide_eq_true_eq, List.all_eq_true,
    List.mem_range]
  refine ⟨⟨⟨⟨⟨⟨⟨h1, h2⟩, h3⟩, h4⟩, h5⟩, h6⟩, h7⟩, ?_⟩
  intro i hi
  unfold slotOK
  simp only [Bool.or_eq_true, Bool.and_eq_true, beq_iff_eq, decide_eq_true_eq]
  rcases h8 i hi with h0 | ⟨ha, hb, hc⟩
  · exact Or.inl h0
  · exact Or.inr ⟨⟨ha, hb⟩, by tauto⟩

theorem hashInv_slots_strict (c : MVMIndexHashTableControl) (h : hashInv c = true)
    (hmax : c.max_items ≠ 0) :
    ∀ i, i < c.metadata.length - 1 → c.metadata.getD i 0 = 0 ∨
      (c.metadata.getD i 0 ≤ i + 1 ∧
       i + 1 - c.metadata.getD i 0 < 2 ^ c.official_size_log2 ∧
       c.metadata.getD i 0 < c.max_probe_distance) := by
  intro i hi
  rcases (hashInv_unpack c h).2.2.2.2.2.2.2 i hi with h0 | ⟨ha, hb, hc⟩
  · exact Or.inl h0
  · rcases hc with hc | hc
    · exact absurd hc hmax
    · exact Or.inr ⟨ha, hb, hc⟩

theorem insertLoop_not_ok_of_ge (c : MVMIndexHashTableControl) (idx : Nat) :
    ∀ fuel pos pd c', c.metadata.length ≤ pos →
      insertLoop c idx pos pd fuel ≠ .ok c' := by
  intro fuel pos pd c' hge h
  cases fuel with
  | zero => simp [insertLoop] at h
  | succ n =>
    rw [insertLoop, List.get?_eq_none.mpr hge] at h
    simp at h

theorem insertLoop_spec (c : MVMIndexHashTableControl) (idx : Nat)
    (hlen : c.entries.length + 1 = c.metadata.length)
    (hsent : c.metadata.getD (c.metadata.length - 1) 0 = 1)
    (hslots : ∀ i, i < c.metadata.length - 1 → c.metadata.getD i 0 = 0 ∨
      (c.metadata.getD i 0 ≤ i + 1 ∧
       i + 1 - c.metadata.getD i 0 < 2 ^ c.official_size_log2 ∧
       c.metadata.getD i 0 < c.max_probe_distance)) :
    ∀ fuel pos pd c',
      pd ≤ pos + 1 → pos + 1 - pd < 2 ^ c.official_size_log2 → 1 ≤ pd →
      pd ≤ c.max_probe_distance →
      insertLoop c idx pos pd fuel = .ok c' →
      InsertOutcome c c' idx := by
  intro fuel
  induction fuel with
  | zero =>
    intro pos pd c' _ _ _ _ h
    simp [insertLoop] at h
  | succ n ih =>
    intro pos pd c' hrel1 hrel2 hpd1 hpdb h
    rw [insertLoop] at h
    cases hm : c.metadata.get? pos with
    | none => rw [hm] at h; simp at h
    | some m =>
      rw [hm] at h
      dsimp only at h
      have hposmd : pos < c.metadata.length := lt_length_of_get?_some hm
      have hmd : c.metadata.getD pos 0 = m := getD_of_get?_some hm
      by_cases hlt : m < pd
      · rw [if_pos hlt] at h
        by_cases hz : m = 0
        · rw [if_pos hz] at h
          simp only [Except.ok.injEq] at h
          subst h
          exact writeEmpty_spec c idx pos pd (by rw [hmd, hz]) hposmd hlen hsent
            hrel1 hrel2 hpd1 hpdb hslots
        · rw [if_neg hz] at h
          cases hg : gapFind c.metadata pos c.metadata.length with
          | none => rw [hg] at h; simp at h
          | some z =>
            rw [hg] at h
            simp only [Except.ok.injEq] at h
            subst h
            exact makeRoom_spec c idx pos pd z hposmd (by rw [hmd]; exact hz) hg
              hlen hsent hrel1 hrel2 hpd1 hpdb hslots
      · rw [if_neg hlt] at h
        by_cases hd : m = pd ∧ c.entries.getD pos 0 = idx
        · rw [if_pos hd] at h
          simp at h
        · rw [if_neg hd] at h
          have hmne : m ≠ 0 := by omega
          by_cases hlast : pos = c.metadata.length - 1
          · exfalso
            exact insertLoop_not_ok_of_ge c idx n (pos + 1) (pd + 1) c'
              (by omega) h
          · have hpos1 : pos < c.metadata.length - 1 := by omega
            rcases hslots pos hpos1 with h0 | ⟨_, _, hc⟩
            · rw [hmd] at h0
              exact absurd h0 hmne
            · rw [hmd] at hc
              exact ih (pos + 1) (pd + 1) c' (by omega) (by omega) (by omega)
                (by omega) h

theorem homeSlot_lt (hf : Nat → Nat) (c : MVMIndexHashTableControl) (key : Nat)
    (h : c.key_right_shift = 64 - c.official_size_log2) :
    homeSlot hf c key < 2 ^ c.official_size_log2 := by
  unfold homeSlot
  rw [h, Nat.shiftRight_eq_div_pow]
  by_cases hle : c.official_size_log2 ≤ 64
  · rw [Nat.div_lt_iff_lt_mul (Nat.pos_pow_of_pos _ (by omega))]
    calc hf key % 2 ^ 64 < 2 ^ 64 := Nat.mod_lt _ (Nat.pos_pow_of_pos _ (by omega))
      _ = 2 ^ (c.official_size_log2 + (64 - c.official_size_log2)) := by
          congr 1
          omega
      _ = 2 ^ c.official_size_log2 * 2 ^ (64 - c.official_size_log2) :=
          pow_add 2 _ _
  · have h0 : 64 - c.official_size_log2 = 0 := by omega
    rw [h0, pow_zero, Nat.div_one]
    calc hf key % 2 ^ 64 < 2 ^ 64 := Nat.mod_lt _ (Nat.pos_pow_of_pos _ (by omega))
      _ ≤ 2 ^ c.official_size_log2 := Nat.pow_le_pow_right (by omega) (by omega)

theorem insertLoop_no_overrun (c : MVMIndexHashTableControl) (idx q : Nat)
    (hq : c.metadata.getD q 0 = 0) (hqlt : q < c.metadata.length) :
    ∀ fuel pos pd, pos ≤ q → 1 ≤ pd → q - pos < fuel →
      insertLoop c idx pos pd fuel ≠ .error .overrun := by
  intro fuel
  induction fuel with
  | zero =>
    intro pos pd h1 h2 h3
    omega
  | succ n ih =>
    intro pos pd h1 h2 h3 h
    rw [insertLoop] at h
    rw [get?_eq_some_getD (show pos < c.metadata.length by omega)] at h
    dsimp only at h
    by_cases hlt : c.metadata.getD pos 0 < pd
    · rw [if_pos hlt] at h
      by_cases hz : c.metadata.getD pos 0 = 0
      · rw [if_pos hz] at h
        simp at h
      · rw [if_neg hz] at h
        have hpq : pos ≠ q := by
          intro he
          rw [he, hq] at hz
          simp at hz
        obtain ⟨z, hgz, _⟩ := gapFind_finds c.metadata c.metadata.length pos q
          (by omega) hqlt hq (by omega)
        rw [hgz] at h
        simp at h
    · rw [if_neg hlt] at h
      have hz : c.metadata.getD pos 0 ≠ 0 := by omega
      have hpq : pos ≠ q := by
        intro he
        rw [he, hq] at hz
        simp at hz
      by_cases hd : c.metadata.getD pos 0 = pd ∧ c.entries.getD pos 0 = idx
      · rw [if_pos hd] at h
        simp at h
      · rw [if_neg hd] at h
        exact ih (pos + 1) (pd + 1) (by omega) (by omega) (by omega) h

theorem insertOutcome_hashInv (c c' : MVMIndexHashTableControl) (idx : Nat)
    (hinv : hashInv c = true) (ho : InsertOutcome c c' idx) : hashInv c' = true := by
  obtain ⟨hinv1, hinv2, hinv3, hinv4, hinv5, hinv6, hinv7, hinv8⟩ := hashInv_unpack c hinv
  obtain ⟨o1, o2, o3, o4, o5, o6, o7, o8, o9, o10, o11⟩ := ho
  refine hashInv_pack c' ?_ ?_ ?_ ?_ ?_ ?_ o10 ?_
  · rw [o3]
    exact hinv1
  · rw [o4, o3]
    exact hinv2
  · rw [o5, o6]
    exact hinv3
  · rw [o5]
    exact hinv4
  · rw [o1, o3, o6, hinv5]
  · rw [o2, o1]
    exact hinv6
  · intro i hi
    rcases o11 i hi with h0 | ⟨ha, hb, hc⟩
    · exact Or.inl h0
    · refine Or.inr ⟨ha, by rw [o3]; exact hb, ?_⟩
      rcases hc with hc | hc
      · exact Or.inl hc
      · exact Or.inr (by rw [o5]; exact hc)

theorem hash_insert_internal_ok_spec (hf : Nat → Nat) (c : MVMIndexHashTableControl)
    (list : List Nat) (idx : Nat) (c' : MVMIndexHashTableControl)
    (hinv : hashInv c = true)
    (h : hash_insert_internal hf c list idx = .ok c') :
    InsertOutcome c c' idx ∧ hashInv c' = true := by
  unfold hash_insert_internal at h
  by_cases hg : c.max_items ≤ c.cur_items
  · rw [if_pos hg] at h
    simp at h
  · rw [if_neg hg] at h
    obtain ⟨hinv1, hinv2, hinv3, hinv4, hinv5, hinv6, hinv7, hinv8⟩ :=
      hashInv_unpack c hinv
    have hmax : c.max_items ≠ 0 := by omega
    have ho := insertLoop_spec c idx hinv6 hinv7 (hashInv_slots_strict c hinv hmax)
      (c.metadata.length + 1) (homeSlot hf c (list.getD idx 0)) 1 c'
      (by omega) (by simpa using homeSlot_lt hf c (list.getD idx 0) hinv2)
      (by omega) (by omega) h
    exact ⟨ho, insertOutcome_hashInv c c' idx hinv ho⟩

theorem hash_insert_internal_no_overrun (hf : Nat → Nat)
    (c : MVMIndexHashTableControl) (list : List Nat) (idx : Nat)
    (hinv : hashInv c = true) (hcur : c.cur_items < c.max_items) :
    hash_insert_internal hf c list idx ≠ .error .overrun := by
  unfold hash_insert_internal
  rw [if_neg (by omega)]
  obtain ⟨hinv1, hinv2, hinv3, hinv4, hinv5, hinv6, hinv7, hinv8⟩ := hashInv_unpack c hinv
  have hmax : c.max_items ≠ 0 := by omega
  have hstrict := hashInv_slots_strict c hinv hmax
  have hofficial : 0 < 2 ^ c.official_size_log2 := Nat.pos_pow_of_pos _ (by omega)
  have hqlt : c.metadata.length - 2 < c.metadata.length := by omega
  have hq0 : c.metadata.getD (c.metadata.length - 2) 0 = 0 := by
    rcases hstrict (c.metadata.length - 2) (by omega) with h0 | ⟨ha, hb, hc⟩
    · exact h0
    · exfalso
      omega
  have hhome := homeSlot_lt hf c (list.getD idx 0) hinv2
  exact insertLoop_no_overrun c idx (c.metadata.length - 2) hq0 hqlt
    (c.metadata.length + 1) (homeSlot hf c (list.getD idx 0)) 1
    (by omega) (by omega) (by omega)

/-- C4 — Overflow-guard termination: under the invariant and the caller's
precondition `cur_items < max_items`, the internal insert never walks off the
allocation (the model's non-termination), and whenever the successful
insertion leaves any slot holding a probe distance that reaches
`max_probe_distance`, the resulting table has `max_items = 0`, so the next
insertion is forced into a resize by the guard at the top of
`hash_insert_internal` / `MVM_index_hash_insert_nocheck`. -/
theorem hash_insert_overflow_guard_termination (hf : Nat → Nat)
    (c : MVMIndexHashTableControl) (list : List Nat) (idx : Nat)
    (hinv : hashInv c = true) (hcur : c.cur_items < c.max_items) :
    hash_insert_internal hf c list idx ≠ .error .overrun ∧
    ∀ c', hash_insert_internal hf c list idx = .ok c' →
      ∀ i, i < c'.metadata.length - 1 →
        c.max_probe_distance ≤ c'.metadata.getD i 0 → c'.max_items = 0 := by
  refine ⟨hash_insert_internal_no_overrun hf c list idx hinv hcur, ?_⟩
  intro c' h i hi hge
  obtain ⟨ho, _⟩ := hash_insert_internal_ok_spec hf c list idx c' hinv h
  obtain ⟨o1, o2, o3, o4, o5, o6, o7, o8, o9, o10, o11⟩ := ho
  rcases o11 i hi with h0 | ⟨ha, hb, hc⟩
  · have := (hashInv_unpack c hinv).2.2.2.1
    omega
  · rcases hc with hc | hc
    · exact hc
    · omega

/-- C4 witness: the fresh minimum-size table satisfies the invariant with
room to spare, and inserting into it does not overrun. -/
theorem hash_insert_overflow_guard_termination_witness :
    hashInv exampleTable0 = true ∧
    exampleTable0.cur_items < exampleTable0.max_items ∧
    hash_insert_internal exampleHashFn exampleTable0 [5] 0 ≠ .error .overrun :=
  ⟨by decide, by decide,
   (hash_insert_overflow_guard_termination exampleHashFn exampleTable0 [5] 0
     (by decide) (by decide)).1⟩

theorem getD_replicate_zero (n i : Nat) : (List.replicate n (0 : Nat)).getD i 0 = 0 := by
  induction n generalizing i with
  | zero => simp
  | succ m ih =>
    cases i with
    | zero => rfl
    | succ j =>
      simp only [List.replicate_succ, List.getD_cons_succ]
      exact ih j

theorem hash_allocate_common_fields (s k : Nat) :
    (hash_allocate_common s k).official_size_log2 = k ∧
    (hash_allocate_common s k).key_right_shift = s ∧
    (hash_allocate_common s k).cur_items = 0 ∧
    (hash_allocate_common s k).max_items = 2 ^ k * 3 / 4 ∧
    (hash_allocate_common s k).max_probe_distance =
      (hash_allocate_common s k).max_probe_distance_limit ∧
    (hash_allocate_common s k).max_probe_distance_limit =
      (if (255 : Nat) - 1 < 2 ^ k * 3 / 4 - 1 then 255 - 1 else 2 ^ k * 3 / 4 - 1) ∧
    (hash_allocate_common s k).metadata =
      List.replicate (2 ^ k + (hash_allocate_common s k).max_probe_distance_limit) 0
        ++ [1] ∧
    (hash_allocate_common s k).entries =
      List.replicate (2 ^ k + (hash_allocate_common s k).max_probe_distance_limit) 0 :=
  ⟨rfl, rfl, rfl, rfl, rfl, rfl, rfl, rfl⟩

theorem hash_allocate_inv (k : Nat) (hk : 3 ≤ k) :
    hashInv (hash_allocate_common (64 - k) k) = true ∧
    contents (hash_allocate_common (64 - k) k) = 0 := by
  obtain ⟨hoff, hshift, hcur, hmaxi, hmpd, hlim, hmd, hen⟩ :=
    hash_allocate_common_fields (64 - k) k
  have h8 : 8 ≤ 2 ^ k := by
    calc (8 : Nat) = 2 ^ 3 := rfl
      _ ≤ 2 ^ k := Nat.pow_le_pow_right (by omega) hk
  have hmax6 : 6 ≤ (hash_allocate_common (64 - k) k).max_items := by
    rw [hmaxi]
    omega
  have hlim2 : 2 ≤ (hash_allocate_common (64 - k) k).max_probe_distance_limit := by
    rw [hlim]
    by_cases hc : (255 : Nat) - 1 < 2 ^ k * 3 / 4 - 1
    · rw [if_pos hc]
      omega
    · rw [if_neg hc]
      omega
  have hmdlen : (hash_allocate_common (64 - k) k).metadata.length =
      2 ^ k + (hash_allocate_common (64 - k) k).max_probe_distance_limit + 1 := by
    rw [hmd]
    simp
  refine ⟨hashInv_pack _ ?_ ?_ hmpd ?_ ?_ ?_ ?_ ?_, ?_⟩
  · rw [hoff]
    exact hk
  · rw [hshift, hoff]
  · rw [hmpd]
    exact hlim2
  · rw [hmdlen, hoff]
  · rw [hen, hmdlen]
    simp
  · rw [hmdlen, hmd, Nat.add_sub_cancel]
    nth_rewrite 2 [← List.length_replicate
      (2 ^ k + (hash_allocate_common (64 - k) k).max_probe_distance_limit) (0 : Nat)]
    exact getD_append_length _ _ _
  · intro i hi
    rw [hmdlen] at hi
    left
    rw [hmd, getD_append_left _ _ _ _ (by simpa using hi), getD_replicate_zero]
  · show (↑(contentsList (hash_allocate_common (64 - k) k).metadata
      (hash_allocate_common (64 - k) k).entries) : Multiset Nat) = 0
    rw [hmd, hen, contentsList_replicate_zero]
    rfl

theorem reinsertAll_spec (hf : Nat → Nat) (list : List Nat) :
    ∀ (P : List (Nat × Nat)) (c c' : MVMIndexHashTableControl),
      hashInv c = true →
      reinsertAll hf list P c = .ok c' →
      hashInv c' = true ∧
      contents c' = contents c + ↑((P.filter (fun p => p.1 ≠ 0)).map Prod.snd) ∧
      c'.official_size_log2 = c.official_size_log2 ∧
      c'.key_right_shift = c.key_right_shift := by
  intro P
  induction P with
  | nil =>
    intro c c' hinv h
    rw [reinsertAll] at h
    simp only [Except.ok.injEq] at h
    subst h
    exact ⟨hinv, by simp, rfl, rfl⟩
  | cons p rest ih =>
    intro c c' hinv h
    obtain ⟨m, e⟩ := p
    rw [reinsertAll] at h
    by_cases hm : m ≠ 0
    · rw [if_pos hm] at h
      cases hins : hash_insert_internal hf c list e with
      | error err =>
        rw [hins] at h
        simp at h
      | ok cmid =>
        rw [hins] at h
        obtain ⟨ho, hinvmid⟩ := hash_insert_internal_ok_spec hf c list e cmid hinv hins
        obtain ⟨o1, o2, o3, o4, o5, o6, o7, o8, o9, o10, o11⟩ := ho
        obtain ⟨hi1, hi2, hi3, hi4⟩ := ih cmid c' hinvmid h
        refine ⟨hi1, ?_, by rw [hi3, o3], by rw [hi4, o4]⟩
        rw [hi2, o9, List.filter_cons, if_pos (by simpa using hm)]
        rw [List.map_cons, ← Multiset.cons_coe, Multiset.cons_add, Multiset.add_cons]
    · rw [if_neg hm] at h
      obtain ⟨hi1, hi2, hi3, hi4⟩ := ih c c' hinv h
      refine ⟨hi1, ?_, hi3, hi4⟩
      rw [hi2, List.filter_cons, if_neg (by simpa using hm)]

theorem kompromat_take_eq (c : MVMIndexHashTableControl) (hinv : hashInv c = true) :
    (c.metadata.zip c.entries).take (kompromat c) = c.metadata.zip c.entries := by
  apply List.take_of_length_le
  rw [List.length_zip]
  obtain ⟨h1, h2, h3, h4, h5, h6, h7, h8⟩ := hashInv_unpack c hinv
  unfold kompromat
  omega

theorem contents_eq_zip_filter (c : MVMIndexHashTableControl) :
    contents c = ↑(((c.metadata.zip c.entries).filter (fun p => p.1 ≠ 0)).map Prod.snd) :=
  rfl

theorem maybe_grow_spec (hf : Nat → Nat) (list : List Nat)
    (c c' : MVMIndexHashTableControl) (hinv : hashInv c = true)
    (h : maybe_grow_hash hf c list = .ok c') :
    hashInv c' = true ∧ contents c' = contents c ∧
    c'.official_size_log2 = c.official_size_log2 + 1 ∧
    c'.key_right_shift = c.key_right_shift - 1 := by
  unfold maybe_grow_hash at h
  obtain ⟨h1, h2, h3, h4, h5, h6, h7, h8⟩ := hashInv_unpack c hinv
  have hsh : c.key_right_shift - 1 = 64 - (c.official_size_log2 + 1) := by omega
  obtain ⟨hai, hac⟩ := hash_allocate_inv (c.official_size_log2 + 1) (by omega)
  rw [kompromat_take_eq c hinv, hsh] at h
  obtain ⟨r1, r2, r3, r4⟩ := reinsertAll_spec hf list (c.metadata.zip c.entries) _ c' hai h
  obtain ⟨f1, f2, _, _, _, _, _, _⟩ :=
    hash_allocate_common_fields (64 - (c.official_size_log2 + 1))
      (c.official_size_log2 + 1)
  refine ⟨r1, ?_, by rw [r3, f1], by rw [r4, f2, ← hsh]⟩
  rw [r2, hac, zero_add]
  exact (contents_eq_zip_filter c).symm

theorem MVM_index_hash_insert_nocheck_spec (hf : Nat → Nat) (list : List Nat)
    (c c' : MVMIndexHashTableControl) (idx : Nat) (hinv : hashInv c = true)
    (h : MVM_index_hash_insert_nocheck hf c list idx = .ok c') :
    hashInv c' = true ∧ contents c' = idx ::ₘ contents c := by
  unfold MVM_index_hash_insert_nocheck at h
  by_cases hg : c.max_items ≤ c.cur_items
  · rw [if_pos hg] at h
    cases hmg : maybe_grow_hash hf c list with
    | error err =>
      rw [hmg] at h
      simp at h
    | ok cg =>
      rw [hmg] at h
      obtain ⟨g1, g2, _, _⟩ := maybe_grow_spec hf list c cg hinv hmg
      obtain ⟨ho, hi⟩ := hash_insert_internal_ok_spec hf cg list idx c' g1 h
      obtain ⟨_, _, _, _, _, _, _, _, o9, _, _⟩ := ho
      exact ⟨hi, by rw [o9, g2]⟩
  · rw [if_neg hg] at h
    obtain ⟨ho, hi⟩ := hash_insert_internal_ok_spec hf c list idx c' hinv h
    obtain ⟨_, _, _, _, _, _, _, _, o9, _, _⟩ := ho
    exact ⟨hi, o9⟩

theorem runInserts_spec (hf : Nat → Nat) (list : List Nat) :
    ∀ (idxs : List Nat) (c c' : MVMIndexHashTableControl),
      hashInv c = true →
      runInserts hf list idxs c = .ok c' →
      hashInv c' = true ∧ contents c' = contents c + ↑idxs := by
  intro idxs
  induction idxs with
  | nil =>
    intro c c' hinv h
    rw [runInserts] at h
    simp only [Except.ok.injEq] at h
    subst h
    exact ⟨hinv, by simp⟩
  | cons idx rest ih =>
    intro c c' hinv h
    rw [runInserts] at h
    cases hins : MVM_index_hash_insert_nocheck hf c list idx with
    | error err =>
      rw [hins] at h
      simp at h
    | ok cmid =>
      rw [hins] at h
      obtain ⟨hinvmid, hcmid⟩ :=
        MVM_index_hash_insert_nocheck_spec hf list c cmid idx hinv hins
      obtain ⟨hi1, hi2⟩ := ih cmid c' hinvmid h
      refine ⟨hi1, ?_⟩
      rw [hi2, hcmid, ← Multiset.cons_coe, Multiset.cons_add, Multiset.add_cons]

theorem build_size_ge_three (e m : Nat) : 3 ≤ build_size_base2 e m := by
  unfold build_size_base2 INDEX_MIN_SIZE_BASE_2
  split
  · omega
  · dsimp only
    split
    · omega
    · omega

theorem build_inv (e m : Nat) :
    hashInv (MVM_index_hash_build e m) = true ∧
    contents (MVM_index_hash_build e m) = 0 :=
  hash_allocate_inv (build_size_base2 e m) (build_size_ge_three e m)

/-- C6 — Hash growth correctness: a resize produces a table with
`official_size_log2 + 1` and `key_right_shift` decremented by one, satisfying
the invariant and storing exactly the old table's entries (the slot walk
re-inserts every occupied entry); consequently inserting a list of indices
into freshly built tables of any two initial sizes yields the same stored
multiset — the inserted list — regardless of how many growth events occur
along either run. -/
theorem MVM_index_hash_growth_correctness (hf : Nat → Nat) :
    (∀ (c c' : MVMIndexHashTableControl) (list : List Nat),
      hashInv c = true → maybe_grow_hash hf c list = .ok c' →
      c'.official_size_log2 = c.official_size_log2 + 1 ∧
      c'.key_right_shift = c.key_right_shift - 1 ∧
      hashInv c' = true ∧ contents c' = contents c) ∧
    (∀ (list idxs : List Nat) (e1 m1 e2 m2 : Nat)
       (c1 c2 : MVMIndexHashTableControl),
      runInserts hf list idxs (MVM_index_hash_build e1 m1) = .ok c1 →
      runInserts hf list idxs (MVM_index_hash_build e2 m2) = .ok c2 →
      contents c1 = ↑idxs ∧ contents c2 = ↑idxs) := by
  constructor
  · intro c c' list hinv h
    obtain ⟨g1, g2, g3, g4⟩ := maybe_grow_spec hf list c c' hinv h
    exact ⟨g3, g4, g1, g2⟩
  · intro list idxs e1 m1 e2 m2 c1 c2 h1 h2
    obtain ⟨bi1, bc1⟩ := build_inv e1 m1
    obtain ⟨bi2, bc2⟩ := build_inv e2 m2
    obtain ⟨_, hc1⟩ := runInserts_spec hf list idxs _ c1 bi1 h1
    obtain ⟨_, hc2⟩ := runInserts_spec hf list idxs _ c2 bi2 h2
    rw [hc1, hc2, bc1, bc2, zero_add]
    exact ⟨rfl, rfl⟩

/-- C6 witness: growing the concrete two-entry table doubles the size and
keeps its contents, and a concrete three-insert run stores exactly the
inserted indices. -/
theorem MVM_index_hash_growth_correctness_witness :
    hashInv exampleTableTie = true ∧
    maybe_grow_hash exampleHashFn exampleTableTie [5, 5] = .ok exampleGrown ∧
    exampleGrown.official_size_log2 = exampleTableTie.official_size_log2 + 1 ∧
    contents exampleGrown = contents exampleTableTie ∧
    runInserts exampleHashFn [5, 6, 7] [0, 1, 2] (MVM_index_hash_build 0 0) =
      .ok exampleRunResult ∧
    contents exampleRunResult = ↑[0, 1, 2] :=
  ⟨by decide, by rfl,
   ((MVM_index_hash_growth_correctness exampleHashFn).1 exampleTableTie exampleGrown
     [5, 5] (by decide) (by rfl)).1,
   ((MVM_index_hash_growth_correctness exampleHashFn).1 exampleTableTie exampleGrown
     [5, 5] (by decide) (by rfl)).2.2.2,
   by rfl,
   ((MVM_index_hash_growth_correctness exampleHashFn).2 [5, 6, 7] [0, 1, 2] 0 0 0 0
     exampleRunResult exampleRunResult (by rfl) (by rfl)).1⟩
